import Mathlib

/-!
Verification of the simplestream-maintainer pipeline of canonical/lxd-imagebuilder.

The Go sources are shallowly embedded: pure logic (product diffing, catalog
incorporation, checksum verification, rename ordering, retention pruning,
path classification) becomes executable Lean functions; filesystem state is
passed explicitly (directory listings, stat results and file ages are inputs);
fallible operations return Option or Except.  SHA-256 itself is an external
primitive and is abstracted as a `digest` parameter mapping byte lists to hex
strings; everything the code does around it (streaming, concatenation,
bookkeeping) is modelled faithfully.
-/

namespace Simplestream

/-! ## Byte-lexicographic string order

Go compares strings byte-wise (`slices.Sort` on `[]string`).  For valid
UTF-8 this coincides with code-point order, which we implement directly on
`String.data` so that comparisons reduce inside `decide`. -/

def lexLe : List Char → List Char → Bool
  | [], _ => true
  | _ :: _, [] => false
  | a :: as, b :: bs =>
    if a.toNat < b.toNat then true
    else if b.toNat < a.toNat then false
    else lexLe as bs

/-- Non-strict byte-lexicographic comparison on strings, as `slices.Sort` uses. -/
def strLe (a b : String) : Bool := lexLe a.data b.data

/-- Strict byte-lexicographic comparison on strings. -/
def strLt (a b : String) : Bool := strLe a b && !(a == b)

theorem lexLe_refl (l : List Char) : lexLe l l = true := by
  induction l with
  | nil => rfl
  | cons a as ih => simp [lexLe, ih]

theorem lexLe_total (a b : List Char) : lexLe a b = true ∨ lexLe b a = true := by
  induction a generalizing b with
  | nil => exact Or.inl rfl
  | cons x xs ih =>
    cases b with
    | nil => exact Or.inr rfl
    | cons y ys =>
      by_cases hxy : x.toNat < y.toNat
      · exact Or.inl (by simp [lexLe, hxy])
      · by_cases hyx : y.toNat < x.toNat
        · exact Or.inr (by simp [lexLe, hyx])
        · rcases ih ys with h | h
          · exact Or.inl (by simp [lexLe, hxy, hyx, h])
          · exact Or.inr (by simp [lexLe, hxy, hyx, h])

theorem lexLe_antisymm {a b : List Char} (hab : lexLe a b = true)
    (hba : lexLe b a = true) : a = b := by
  induction a generalizing b with
  | nil =>
    cases b with
    | nil => rfl
    | cons y ys => simp [lexLe] at hba
  | cons x xs ih =>
    cases b with
    | nil => simp [lexLe] at hab
    | cons y ys =>
      rcases Nat.lt_trichotomy x.toNat y.toNat with h | h | h
      · rw [lexLe, if_neg (by omega), if_pos h] at hba
        exact absurd hba (by simp)
      · rw [lexLe, if_neg (by omega), if_neg (by omega)] at hab
        rw [lexLe, if_neg (by omega), if_neg (by omega)] at hba
        have hx : x = y := Char.ext (UInt32.ext h)
        rw [hx, ih hab hba]
      · rw [lexLe, if_neg (by omega), if_pos h] at hab
        exact absurd hab (by simp)

theorem lexLe_trans {a b c : List Char} (hab : lexLe a b = true)
    (hbc : lexLe b c = true) : lexLe a c = true := by
  induction a generalizing b c with
  | nil => rfl
  | cons x xs ih =>
    cases b with
    | nil => simp [lexLe] at hab
    | cons y ys =>
      cases c with
      | nil => simp [lexLe] at hbc
      | cons z zs =>
        rcases Nat.lt_trichotomy x.toNat y.toNat with hxy | hxy | hxy
        · rcases Nat.lt_trichotomy y.toNat z.toNat with hyz | hyz | hyz
          · rw [lexLe, if_pos (by omega)]
          · rw [lexLe, if_pos (by omega)]
          · rw [lexLe, if_neg (by omega), if_pos hyz] at hbc
            exact absurd hbc (by simp)
        · rcases Nat.lt_trichotomy y.toNat z.toNat with hyz | hyz | hyz
          · rw [lexLe, if_pos (by omega)]
          · rw [lexLe, if_neg (by omega), if_neg (by omega)] at hab
            rw [lexLe, if_neg (by omega), if_neg (by omega)] at hbc
            rw [lexLe, if_neg (by omega), if_neg (by omega)]
            exact ih hab hbc
          · rw [lexLe, if_neg (by omega), if_pos hyz] at hbc
            exact absurd hbc (by simp)
        · rw [lexLe, if_neg (by omega), if_pos hxy] at hab
          exact absurd hab (by simp)

theorem strLe_total (a b : String) : strLe a b = true ∨ strLe b a = true :=
  lexLe_total a.data b.data

theorem strLe_antisymm {a b : String} (hab : strLe a b = true)
    (hba : strLe b a = true) : a = b :=
  String.ext (lexLe_antisymm hab hba)

theorem strLe_trans {a b c : String} (hab : strLe a b = true)
    (hbc : strLe b c = true) : strLe a c = true :=
  lexLe_trans hab hbc

/-- The propositional order used for sorting version names. -/
def strLeP (a b : String) : Prop := strLe a b = true

instance : DecidableRel strLeP := fun a b => decEq (strLe a b) true

instance : IsTotal String strLeP := ⟨strLe_total⟩

instance : IsTrans String strLeP := ⟨fun _ _ _ => strLe_trans⟩

/-! ## Go string and path helpers -/

/-- Splitting a character list at every occurrence of a separator, as Go's
strings.Split does for a one-character separator. -/
def splitOnChar (c : Char) : List Char → List (List Char)
  | [] => [[]]
  | x :: rest =>
    if x = c then [] :: splitOnChar c rest
    else
      match splitOnChar c rest with
      | [] => [[x]]
      | p :: ps => (x :: p) :: ps

theorem splitOnChar_ne_nil (c : Char) (l : List Char) : splitOnChar c l ≠ [] := by
  cases l with
  | nil => simp [splitOnChar]
  | cons x rest =>
    by_cases hx : x = c
    · simp [splitOnChar, hx]
    · simp only [splitOnChar, hx, if_false]
      cases splitOnChar c rest <;> simp

/-- Go strings.Split for a single-character separator, producing strings. -/
def goSplit (s : String) (c : Char) : List String :=
  (splitOnChar c s.data).map (fun l => ⟨l⟩)

/-- Go strings.HasSuffix. -/
def goHasSuffix (s suffix : String) : Bool :=
  suffix.data.isSuffixOf s.data

/-- Go strings.HasPrefix. -/
def goHasPrefix (s pre : String) : Bool :=
  pre.data.isPrefixOf s.data

/-- Go filepath.Ext on a clean file name: the suffix starting at the final
dot of the final path element, or the empty string when there is no dot. -/
def goExt (name : String) : String :=
  let parts := splitOnChar '.' name.data
  if parts.length ≤ 1 then "" else "." ++ ⟨parts.getLastD []⟩

/-- Go filepath.Join for two already-clean, slash-free-boundary components. -/
def goJoin2 (a b : String) : String := a ++ "/" ++ b

/-- Go filepath.Base for a clean path without a trailing slash: the final
slash-separated element. -/
def goBase (path : String) : String :=
  ⟨(splitOnChar '/' path.data).getLastD []⟩

/-! ## Association maps

Go maps are embedded as association lists keyed by strings.  JSON decoding
and Go map semantics guarantee duplicate-free keys, which theorems assume
through explicit Nodup hypotheses where needed. -/

/-- Keys of an association list. -/
def keysA {V : Type} (m : List (String × V)) : List String := m.map Prod.fst

/-- Lookup in an association list (Go map read). -/
def lookupA {V : Type} : List (String × V) → String → Option V
  | [], _ => none
  | (k, v) :: rest, key => if k = key then some v else lookupA rest key

/-- Insert or replace in an association list (Go map write). -/
def insertA {V : Type} : List (String × V) → String → V → List (String × V)
  | [], key, value => [(key, value)]
  | (k, v) :: rest, key, value =>
    if k = key then (key, value) :: rest else (k, v) :: insertA rest key value

/-- Remove a key from an association list (Go delete). -/
def eraseA {V : Type} (m : List (String × V)) (key : String) : List (String × V) :=
  m.filter (fun e => !(e.1 == key))

theorem lookupA_insert_self {V : Type} (m : List (String × V)) (k : String) (v : V) :
    lookupA (insertA m k v) k = some v := by
  induction m with
  | nil => simp [insertA, lookupA]
  | cons e rest ih =>
    by_cases he : e.1 = k
    · simp [insertA, he, lookupA]
    · simp [insertA, he, lookupA, ih]

theorem lookupA_insert_ne {V : Type} (m : List (String × V)) (k k' : String) (v : V)
    (h : k ≠ k') : lookupA (insertA m k v) k' = lookupA m k' := by
  induction m with
  | nil => simp [insertA, lookupA, h]
  | cons e rest ih =>
    by_cases he : e.1 = k
    · simp [insertA, he, lookupA, h]
    · simp only [insertA, he, if_false]
      by_cases he' : e.1 = k'
      · simp [lookupA, he']
      · simp [lookupA, he', ih]

theorem lookupA_mem {V : Type} {m : List (String × V)} {k : String} {v : V}
    (h : lookupA m k = some v) : (k, v) ∈ m := by
  induction m with
  | nil => simp [lookupA] at h
  | cons e rest ih =>
    by_cases he : e.1 = k
    · rw [lookupA, if_pos he] at h
      cases h
      have : (k, e.2) = e := by
        cases e
        simpa using he.symm
      rw [this]
      exact List.mem_cons_self _ _
    · simp only [lookupA, he, if_false] at h
      exact List.mem_cons_of_mem _ (ih h)

theorem lookupA_isSome_iff_mem_keys {V : Type} (m : List (String × V)) (k : String) :
    (lookupA m k).isSome = true ↔ k ∈ keysA m := by
  induction m with
  | nil => simp [lookupA, keysA]
  | cons e rest ih =>
    by_cases he : e.1 = k
    · simp [lookupA, he, keysA]
    · simp only [lookupA, he, if_false, keysA, List.map_cons, List.mem_cons]
      rw [ih]
      constructor
      · exact fun h => Or.inr h
      · rintro (h | h)
        · exact absurd h.symm he
        · exact h

theorem lookupA_eq_none_iff {V : Type} (m : List (String × V)) (k : String) :
    lookupA m k = none ↔ k ∉ keysA m := by
  rw [← lookupA_isSome_iff_mem_keys]
  cases lookupA m k <;> simp

theorem lookupA_map_value {V W : Type} (f : String → V → W) (m : List (String × V))
    (k : String) :
    lookupA (m.map (fun e => (e.1, f e.1 e.2))) k = (lookupA m k).map (f k) := by
  induction m with
  | nil => simp [lookupA]
  | cons e rest ih =>
    by_cases he : e.1 = k
    · simp [lookupA, he]
    · simp [lookupA, he, ih]

/-! ## Rename ordering of buildIndex (cmd_build.go)

buildIndex writes every artifact to a dot-prefixed temporary sibling and
collects pending renames in a slice which is replayed in order at the end.
The model below reproduces exactly the order in which the replace entries
are appended (catalog and its gzip sibling per stream, then index and its
gzip sibling). -/

/-- A pending rename from a temporary path to a final path. -/
structure Replace where
  OldPath : String
  NewPath : String
deriving DecidableEq, Repr, Inhabited

/-- The catalog rename entry appended for one stream. -/
def catalogReplace (metaDir streamName : String) : Replace :=
  ⟨goJoin2 metaDir ("." ++ streamName ++ ".json.tmp"),
   goJoin2 metaDir (streamName ++ ".json")⟩

/-- The catalog gzip rename entry appended for one stream. -/
def catalogGzReplace (metaDir streamName : String) : Replace :=
  ⟨goJoin2 metaDir ("." ++ streamName ++ ".json.tmp") ++ ".gz",
   goJoin2 metaDir (streamName ++ ".json") ++ ".gz"⟩

/-- The index rename entry. -/
def indexReplace (metaDir : String) : Replace :=
  ⟨goJoin2 metaDir ".index.json.tmp", goJoin2 metaDir "index.json"⟩

/-- The index gzip rename entry. -/
def indexGzReplace (metaDir : String) : Replace :=
  ⟨goJoin2 metaDir ".index.json.tmp" ++ ".gz", goJoin2 metaDir "index.json" ++ ".gz"⟩

/-- The ordered list of renames buildIndex performs on its success path:
per stream the catalog and then its gzip sibling, and after all streams the
index and its gzip sibling. -/
def buildIndexReplaces (metaDir : String) (streamNames : List String) : List Replace :=
  (streamNames.flatMap fun s => [catalogReplace metaDir s, catalogGzReplace metaDir s])
    ++ [indexReplace metaDir, indexGzReplace metaDir]

/-- The rename order claimed by the specification: all catalogs first, then
all catalog gzip siblings, then the index, then the index gzip sibling. -/
def specClaimedRenameOrder (metaDir : String) (streamNames : List String) : List Replace :=
  (streamNames.map (catalogReplace metaDir))
    ++ (streamNames.map (catalogGzReplace metaDir))
    ++ [indexReplace metaDir, indexGzReplace metaDir]

theorem length_flatMap_pair {α β : Type} (f g : α → β) (l : List α) :
    (l.flatMap fun s => [f s, g s]).length = 2 * l.length := by
  induction l with
  | nil => rfl
  | cons x xs ih => simp [List.flatMap_cons, ih]; omega

/-- C1.  The claim states that buildIndex performs renames in the order
"all catalogs, all catalog .gz, index, index .gz".  The code instead appends,
for each stream in turn, the stream's catalog rename immediately followed by
that stream's gzip rename, so with two or more streams the actual order
interleaves catalogs with their gzip siblings.  Counterexample with two
streams named "a" and "b". -/
theorem buildIndex_rename_order_counterexample :
    buildIndexReplaces "root/streams/v1" ["a", "b"] ≠
      specClaimedRenameOrder "root/streams/v1" ["a", "b"] := by
  decide

/-- C1 (amended).  During publish, buildIndex renames temporary files to
their final names in the order: for each stream in turn the stream's catalog
followed by that catalog's .gz companion, and after all streams index.json
followed by index.json.gz.  In particular, for every stream, the stream's
catalog JSON and its .gz companion are renamed to their final paths before
index.json and index.json.gz are renamed: the index entries occupy exactly
the final two positions of the rename list, and every stream's two entries
lie in the strictly earlier positions. -/
theorem buildIndex_rename_order (metaDir : String) (streamNames : List String) :
    (buildIndexReplaces metaDir streamNames).drop (2 * streamNames.length) =
        [indexReplace metaDir, indexGzReplace metaDir] ∧
      (∀ s ∈ streamNames,
        catalogReplace metaDir s ∈
            (buildIndexReplaces metaDir streamNames).take (2 * streamNames.length) ∧
          catalogGzReplace metaDir s ∈
            (buildIndexReplaces metaDir streamNames).take (2 * streamNames.length)) := by
  have hlen : (streamNames.flatMap fun s =>
      [catalogReplace metaDir s, catalogGzReplace metaDir s]).length =
      2 * streamNames.length := length_flatMap_pair _ _ _
  constructor
  · rw [buildIndexReplaces, ← hlen, List.drop_left]
  · intro s hs
    rw [buildIndexReplaces, ← hlen, List.take_left]
    constructor
    · exact List.mem_flatMap.mpr ⟨s, hs, by simp⟩
    · exact List.mem_flatMap.mpr ⟨s, hs, by simp⟩

/-- Witness for the amended C1 theorem at a concrete input. -/
theorem buildIndex_rename_order_witness :
    (buildIndexReplaces "m" ["a", "b"]).drop (2 * (["a", "b"] : List String).length) =
        [indexReplace "m", indexGzReplace "m"] ∧
      (∀ s ∈ (["a", "b"] : List String),
        catalogReplace "m" s ∈
            (buildIndexReplaces "m" ["a", "b"]).take (2 * (["a", "b"] : List String).length) ∧
          catalogGzReplace "m" s ∈
            (buildIndexReplaces "m" ["a", "b"]).take (2 * (["a", "b"] : List String).length)) :=
  buildIndex_rename_order "m" ["a", "b"]

/-! ## Data model (stream/index.go)

The item type constants, Item, Version, Product and ProductCatalog records
of the stream package.  Go maps become association lists; the non-serialized
Checksums map distinguishes nil (no SHA256SUMS file seen) from present via
Option. -/

def ItemTypeMetadata : String := "lxd.tar.xz"

def ItemTypeSquashfs : String := "squashfs"

def ItemTypeSquashfsDelta : String := "squashfs.vcdiff"

def ItemTypeDiskKVM : String := "disk-kvm.img"

def ItemTypeDiskKVMDelta : String := "disk-kvm.img.vcdiff"

def ItemTypeRootTarXz : String := "root.tar.xz"

def ItemExtMetadata : String := ".tar.xz"

def ItemExtSquashfs : String := ".squashfs"

def ItemExtSquashfsDelta : String := ".vcdiff"

def ItemExtDiskKVM : String := ".qcow2"

def ItemExtDiskKVMDelta : String := ".qcow2.vcdiff"

/-- List of item extensions that will be included in a product version. -/
def allowedItemExtensions : List String :=
  [ItemExtMetadata, ItemExtSquashfs, ItemExtSquashfsDelta, ItemExtDiskKVM,
   ItemExtDiskKVMDelta]

def FileChecksumSHA256 : String := "SHA256SUMS"

def FileImageConfig : String := "image.yaml"

/-- Item represents a file within a product version. -/
structure Item where
  Ftype : String := ""
  Path : String := ""
  Size : Int := 0
  SHA256 : String := ""
  CombinedSHA256DiskKvmImg : String := ""
  CombinedSHA256SquashFs : String := ""
  CombinedSHA256RootXz : String := ""
  DeltaBase : String := ""
deriving DecidableEq, Repr, Inhabited

/-- One entry of the simplestream image-config requirements list
(shared.DefinitionSimplestreamRequirement): an optional filter over
releases, architectures and variants plus the requirement pairs to apply.
An empty filter list means the filter is absent. -/
structure SimplestreamRequirement where
  releases : List String := []
  architectures : List String := []
  variants : List String := []
  requirements : List (String × String) := []
deriving DecidableEq, Repr, Inhabited

/-- The simplestream section of image.yaml (shared.DefinitionSimplestream). -/
structure ImageConfig where
  DistroName : String := ""
  ReleaseAliases : List (String × String) := []
  Requirements : List SimplestreamRequirement := []
deriving DecidableEq, Repr, Inhabited

/-- Version represents a list of items available for the given image
version, together with the derived incomplete flag, the parsed SHA256SUMS
map (none when the file is absent) and the parsed image config. -/
structure Version where
  incomplete : Bool := true
  Checksums : Option (List (String × String)) := none
  ImageConfig : ImageConfig := {}
  Items : List (String × Item) := []
deriving DecidableEq, Repr, Inhabited

/-- Product represents a single image with all its available versions. -/
structure Product where
  Aliases : String := ""
  Architecture : String := ""
  Distro : String := ""
  OS : String := ""
  Release : String := ""
  ReleaseTitle : String := ""
  Variant : String := ""
  Versions : List (String × Version) := []
  Requirements : List (String × String) := []
deriving DecidableEq, Repr, Inhabited

/-- ID returns the ID of the product. -/
def Product.ID (p : Product) : String :=
  p.Distro ++ ":" ++ p.Release ++ ":" ++ p.Architecture ++ ":" ++ p.Variant

/-- RelPath returns the product's path relative to the stream's root directory. -/
def Product.RelPath (p : Product) : String :=
  goJoin2 (goJoin2 (goJoin2 p.Distro p.Release) p.Architecture) p.Variant

/-- ProductCatalog contains all products. -/
structure ProductCatalog where
  ContentID : String := ""
  Format : String := ""
  DataType : String := ""
  Products : List (String × Product) := []
deriving DecidableEq, Repr, Inhabited

/-- NewCatalog creates a new product catalog. -/
def NewCatalog (streamName : String) (products : List (String × Product)) : ProductCatalog :=
  { ContentID := streamName
    DataType := "image-downloads"
    Format := "products:1.0"
    Products := products }

/-! ## diffProducts (cmd_build.go)

findMissing iterates the new map and keeps every product whose ID is absent
from the old map (with all of its versions) or that has at least one version
absent from the old map's product of the same ID (with exactly those
versions).  Iterating an association list in order is equivalent to Go's
unordered map iteration here because each key occurs once. -/

def findMissing (mapOld mapNew : List (String × Product)) : List (String × Product) :=
  match mapNew with
  | [] => []
  | (id, p) :: rest =>
    match lookupA mapOld id with
    | none => (id, p) :: findMissing mapOld rest
    | some po =>
      let versions := p.Versions.filter fun e => (lookupA po.Versions e.1).isNone
      if versions.length > 0 then
        (id, { p with Versions := versions }) :: findMissing mapOld rest
      else
        findMissing mapOld rest

/-- diffProducts compares two product maps and returns the difference
between them: products missing from the new map, and products (or product
versions) missing from the old map. -/
def diffProducts (oldProducts newProducts : List (String × Product)) :
    List (String × Product) × List (String × Product) :=
  (findMissing newProducts oldProducts, findMissing oldProducts newProducts)

theorem keys_findMissing_subset (mapOld mapNew : List (String × Product)) (k : String)
    (hmem : k ∈ keysA (findMissing mapOld mapNew)) : k ∈ keysA mapNew := by
  induction mapNew with
  | nil => simp [findMissing, keysA] at hmem
  | cons e rest ih =>
    obtain ⟨k2, p2⟩ := e
    simp only [findMissing] at hmem
    cases h2 : lookupA mapOld k2 with
    | none =>
      rw [h2] at hmem
      simp only [keysA, List.map_cons, List.mem_cons] at hmem ⊢
      rcases hmem with h | h
      · exact Or.inl h
      · exact Or.inr (ih h)
    | some po2 =>
      rw [h2] at hmem
      by_cases hv : (p2.Versions.filter fun e =>
          (lookupA po2.Versions e.1).isNone).length > 0
      · simp only [hv, if_pos] at hmem
        simp only [keysA, List.map_cons, List.mem_cons] at hmem ⊢
        rcases hmem with h | h
        · exact Or.inl h
        · exact Or.inr (ih h)
      · simp only [hv, if_false] at hmem
        simp only [keysA, List.map_cons, List.mem_cons]
        exact Or.inr (ih hmem)

theorem lookupA_findMissing (mapOld mapNew : List (String × Product))
    (hnew : (keysA mapNew).Nodup) (id : String) :
    lookupA (findMissing mapOld mapNew) id =
      match lookupA mapNew id with
      | none => none
      | some p =>
        match lookupA mapOld id with
        | none => some p
        | some po =>
          let versions := p.Versions.filter fun e => (lookupA po.Versions e.1).isNone
          if versions.length > 0 then some { p with Versions := versions } else none := by
  induction mapNew with
  | nil => simp [findMissing, lookupA]
  | cons e rest ih =>
    obtain ⟨k, p⟩ := e
    have hk : k ∉ keysA rest := by
      simp only [keysA, List.map_cons, List.nodup_cons] at hnew
      exact hnew.1
    have hrest : (keysA rest).Nodup := by
      simp only [keysA, List.map_cons, List.nodup_cons] at hnew
      exact hnew.2
    by_cases hek : k = id
    · subst hek
      have hnone : lookupA (findMissing mapOld rest) k = none := by
        rw [lookupA_eq_none_iff]
        exact fun hmem => hk (keys_findMissing_subset mapOld rest k hmem)
      simp only [findMissing, lookupA, if_pos rfl]
      cases h2 : lookupA mapOld k with
      | none => simp [lookupA]
      | some po =>
        by_cases hv : ((p.Versions.filter fun e =>
            (lookupA po.Versions e.1).isNone).length > 0)
        · simp [hv, lookupA]
        · simp [hv, hnone]
    · simp only [findMissing, lookupA]
      cases h2 : lookupA mapOld k with
      | none => simp [lookupA, hek, ih hrest]
      | some po =>
        by_cases hv : ((p.Versions.filter fun e =>
            (lookupA po.Versions e.1).isNone).length > 0)
        · simp [hv, lookupA, hek, ih hrest]
        · simp [hv, lookupA, hek, ih hrest]

theorem lookupA_filter_key {V : Type} (p : String → Bool) (m : List (String × V))
    (k : String) :
    lookupA (m.filter fun e => p e.1) k = if p k then lookupA m k else none := by
  induction m with
  | nil => simp [lookupA]
  | cons e rest ih =>
    by_cases hp : p e.1
    · by_cases he : e.1 = k
      · subst he
        simp [List.filter_cons, hp, lookupA]
      · simp [List.filter_cons, hp, lookupA, he, ih]
    · by_cases he : e.1 = k
      · subst he
        simp [List.filter_cons, hp, lookupA, ih]
      · simp [List.filter_cons, hp, lookupA, he, ih]

theorem mem_keysA_iff {V : Type} (m : List (String × V)) (k : String) :
    k ∈ keysA m ↔ ∃ v, (k, v) ∈ m := by
  simp only [keysA, List.mem_map]
  constructor
  · rintro ⟨⟨k2, v⟩, hmem, rfl⟩
    exact ⟨v, hmem⟩
  · rintro ⟨v, hmem⟩
    exact ⟨(k, v), hmem, rfl⟩

/-- C7.  diffProducts reports a product as added iff its ID is absent from
the old map or at least one of its version names is absent from the old
map's product of the same ID; for a brand-new ID the product is returned
unchanged, and for an existing ID the returned Product is the freshly
scanned one with its Versions map restricted to exactly the versions absent
from the old product, all other (metadata) fields being taken from the new
map.  Input maps are not modified: the embedding is pure and mirrors the
code's construction of fresh maps. -/
theorem diffProducts_added_characterization
    (oldProducts newProducts : List (String × Product))
    (hnew : (keysA newProducts).Nodup) (id : String) :
    ((lookupA (diffProducts oldProducts newProducts).2 id).isSome ↔
      ∃ pn, lookupA newProducts id = some pn ∧
        (lookupA oldProducts id = none ∨
          ∃ po, lookupA oldProducts id = some po ∧
            ∃ name, name ∈ keysA pn.Versions ∧ lookupA po.Versions name = none)) ∧
    (∀ p pn, lookupA (diffProducts oldProducts newProducts).2 id = some p →
      lookupA newProducts id = some pn → lookupA oldProducts id = none → p = pn) ∧
    (∀ p pn po, lookupA (diffProducts oldProducts newProducts).2 id = some p →
      lookupA newProducts id = some pn → lookupA oldProducts id = some po →
      p = { pn with
            Versions := pn.Versions.filter fun e => (lookupA po.Versions e.1).isNone } ∧
        ∀ name v, lookupA p.Versions name = some v ↔
          lookupA pn.Versions name = some v ∧ lookupA po.Versions name = none) := by
  have hmain := lookupA_findMissing oldProducts newProducts hnew id
  simp only [diffProducts]
  refine ⟨?_, ?_, ?_⟩
  · rw [hmain]
    cases hn : lookupA newProducts id with
    | none => simp
    | some pn =>
      cases ho : lookupA oldProducts id with
      | none => simp
      | some po =>
        simp only [Option.isSome_some, Option.some.injEq]
        by_cases hv : ((pn.Versions.filter fun e =>
            (lookupA po.Versions e.1).isNone).length > 0)
        · simp only [hv, if_pos, Option.isSome_some, true_iff]
          refine ⟨pn, rfl, Or.inr ⟨po, rfl, ?_⟩⟩
          have hne : (pn.Versions.filter fun e =>
              (lookupA po.Versions e.1).isNone) ≠ [] := by
            intro hnil
            rw [hnil] at hv
            simp at hv
          obtain ⟨e, hemem⟩ := List.exists_mem_of_ne_nil _ hne
          have := List.mem_filter.mp hemem
          refine ⟨e.1, (mem_keysA_iff _ _).mpr ⟨e.2, this.1⟩, ?_⟩
          have h2 := this.2
          cases hl : lookupA po.Versions e.1 with
          | none => rfl
          | some v => rw [hl] at h2; simp at h2
        · simp only [hv, if_false, Option.isSome_none, Bool.false_eq_true, false_iff]
          rintro ⟨pn2, hpn2, h | ⟨po2, hpo2, name, hmem, hnone⟩⟩
          · exact absurd h (by simp)
          · rw [← hpn2] at hmem
            rw [← hpo2] at hnone
            apply hv
            obtain ⟨v, hv2⟩ := (mem_keysA_iff _ _).mp hmem
            have hvmem : (name, v) ∈ pn.Versions.filter fun e =>
                (lookupA po.Versions e.1).isNone := by
              apply List.mem_filter.mpr
              exact ⟨hv2, by simp [hnone]⟩
            calc 0 < 1 := Nat.zero_lt_one
              _ ≤ _ := List.length_pos.mpr (List.ne_nil_of_mem hvmem)
  · intro p pn hadd hn ho
    rw [hmain, hn, ho] at hadd
    simpa using hadd.symm
  · intro p pn po hadd hn ho
    rw [hmain, hn, ho] at hadd
    by_cases hv : ((pn.Versions.filter fun e =>
        (lookupA po.Versions e.1).isNone).length > 0)
    · simp only [hv, if_pos] at hadd
      cases hadd
      refine ⟨rfl, fun name v => ?_⟩
      simp only
      rw [lookupA_filter_key (fun n => (lookupA po.Versions n).isNone) pn.Versions name]
      cases hl : lookupA po.Versions name <;> simp
    · simp only [hv, if_false] at hadd
      cases hadd

/-- Example product maps used by concrete witnesses. -/
def sampleVersion (n : Int) : Version :=
  { incomplete := false
    Checksums := none
    ImageConfig := {}
    Items := [("lxd.tar.xz", { Ftype := "lxd.tar.xz", Size := n })] }

/-- An existing catalog product with version 1 only. -/
def sampleOldProducts : List (String × Product) :=
  [("ubuntu:noble:amd64:cloud",
    { Distro := "ubuntu", Release := "noble", Architecture := "amd64",
      Variant := "cloud", Versions := [("v1", sampleVersion 1)] })]

/-- A freshly scanned product map with one extra version and one new product. -/
def sampleNewProducts : List (String × Product) :=
  [("ubuntu:noble:amd64:cloud",
    { Distro := "ubuntu", Release := "noble", Architecture := "amd64",
      Variant := "cloud", OS := "Ubuntu",
      Versions := [("v1", sampleVersion 1), ("v2", sampleVersion 2)] }),
   ("alpine:edge:amd64:default",
    { Distro := "alpine", Release := "edge", Architecture := "amd64",
      Variant := "default", Versions := [("v9", sampleVersion 9)] })]

/-- Witness for the C7 theorem at concrete product maps. -/
theorem diffProducts_added_characterization_witness :
    ((lookupA (diffProducts sampleOldProducts sampleNewProducts).2
        "ubuntu:noble:amd64:cloud").isSome ↔
      ∃ pn, lookupA sampleNewProducts "ubuntu:noble:amd64:cloud" = some pn ∧
        (lookupA sampleOldProducts "ubuntu:noble:amd64:cloud" = none ∨
          ∃ po, lookupA sampleOldProducts "ubuntu:noble:amd64:cloud" = some po ∧
            ∃ name, name ∈ keysA pn.Versions ∧ lookupA po.Versions name = none)) ∧
    (∀ p pn, lookupA (diffProducts sampleOldProducts sampleNewProducts).2
        "ubuntu:noble:amd64:cloud" = some p →
      lookupA sampleNewProducts "ubuntu:noble:amd64:cloud" = some pn →
      lookupA sampleOldProducts "ubuntu:noble:amd64:cloud" = none → p = pn) ∧
    (∀ p pn po, lookupA (diffProducts sampleOldProducts sampleNewProducts).2
        "ubuntu:noble:amd64:cloud" = some p →
      lookupA sampleNewProducts "ubuntu:noble:amd64:cloud" = some pn →
      lookupA sampleOldProducts "ubuntu:noble:amd64:cloud" = some po →
      p = { pn with
            Versions := pn.Versions.filter fun e => (lookupA po.Versions e.1).isNone } ∧
        ∀ name v, lookupA p.Versions name = some v ↔
          lookupA pn.Versions name = some v ∧ lookupA po.Versions name = none) :=
  diffProducts_added_characterization sampleOldProducts sampleNewProducts
    (by decide) "ubuntu:noble:amd64:cloud"

/-! ## Phase-1 incorporation of added products (cmd_build.go buildProductCatalog)

For each product reported as added by the diff, the catalog's product record
is replaced with the freshly scanned value; the existing Versions map is
retained when the product already exists in the catalog with at least one
version, and a fresh empty map is installed otherwise. -/

/-- The incorporation step for one added product. -/
def incorporateNewProduct (products : List (String × Product)) (id : String)
    (p : Product) : List (String × Product) :=
  let tmp :=
    match lookupA products id with
    | some ex =>
      if ex.Versions.length > 0 then { p with Versions := ex.Versions }
      else { p with Versions := [] }
    | none => { p with Versions := [] }
  insertA products id tmp

/-- The incorporation loop over all added products. -/
def incorporateNewProducts (products newProducts : List (String × Product)) :
    List (String × Product) :=
  newProducts.foldl (fun acc e => incorporateNewProduct acc e.1 e.2) products

theorem lookupA_incorporateNewProduct_ne (products : List (String × Product))
    (id id' : String) (p : Product) (h : id ≠ id') :
    lookupA (incorporateNewProduct products id p) id' = lookupA products id' := by
  simp only [incorporateNewProduct]
  exact lookupA_insert_ne _ _ _ _ h

theorem lookupA_incorporateNewProducts_not_mem (products newProducts : List (String × Product))
    (id : String) (h : id ∉ keysA newProducts) :
    lookupA (incorporateNewProducts products newProducts) id = lookupA products id := by
  induction newProducts generalizing products with
  | nil => rfl
  | cons e rest ih =>
    simp only [keysA, List.map_cons, List.mem_cons, not_or] at h
    simp only [incorporateNewProducts, List.foldl_cons]
    show lookupA (incorporateNewProducts (incorporateNewProduct products e.1 e.2) rest) id = _
    rw [ih _ (by simpa [keysA] using h.2)]
    exact lookupA_incorporateNewProduct_ne _ _ _ _ (fun he => h.1 he.symm)

theorem lookupA_incorporateNewProducts (products newProducts : List (String × Product))
    (hnodup : (keysA newProducts).Nodup) (id : String) (p : Product)
    (hp : lookupA newProducts id = some p) :
    lookupA (incorporateNewProducts products newProducts) id =
      some (match lookupA products id with
            | some ex =>
              if ex.Versions.length > 0 then { p with Versions := ex.Versions }
              else { p with Versions := [] }
            | none => { p with Versions := [] }) := by
  induction newProducts generalizing products with
  | nil => simp [lookupA] at hp
  | cons e rest ih =>
    obtain ⟨k, q⟩ := e
    simp only [keysA, List.map_cons, List.nodup_cons] at hnodup
    by_cases hk : k = id
    · subst hk
      rw [lookupA, if_pos rfl] at hp
      have hqp : q = p := by injection hp
      subst hqp
      simp only [incorporateNewProducts, List.foldl_cons]
      show lookupA (incorporateNewProducts (incorporateNewProduct products k q) rest) k = _
      rw [lookupA_incorporateNewProducts_not_mem _ _ _ hnodup.1]
      simp only [incorporateNewProduct]
      rw [lookupA_insert_self]
    · rw [lookupA, if_neg hk] at hp
      simp only [incorporateNewProducts, List.foldl_cons]
      show lookupA (incorporateNewProducts (incorporateNewProduct products k q) rest) id = _
      rw [ih _ hnodup.2 hp]
      rw [lookupA_incorporateNewProduct_ne _ _ _ _ hk]

theorem keysA_findMissing_sublist (mapOld mapNew : List (String × Product)) :
    (keysA (findMissing mapOld mapNew)).Sublist (keysA mapNew) := by
  induction mapNew with
  | nil => simp [findMissing, keysA]
  | cons e rest ih =>
    obtain ⟨k, q⟩ := e
    simp only [findMissing]
    cases h : lookupA mapOld k with
    | none =>
      simp only [keysA, List.map_cons]
      exact List.Sublist.cons₂ _ ih
    | some po =>
      by_cases hv : ((q.Versions.filter fun e =>
          (lookupA po.Versions e.1).isNone).length > 0)
      · simp only [hv, if_pos, keysA, List.map_cons]
        exact List.Sublist.cons₂ _ ih
      · simp only [hv, if_false, keysA, List.map_cons]
        exact List.Sublist.cons _ ih

/-- C2.  For every product ID reported as added by the diff that already
exists in the existing catalog with a non-empty Versions map, the
incorporation loop of buildProductCatalog replaces the catalog's product
record with the freshly scanned one but retains the existing Versions map,
so every version already present in the catalog (with its previously
computed hashes) is still present, unmodified, after incorporation. -/
theorem buildProductCatalog_incorporation_retains_versions
    (catalogProducts scannedProducts : List (String × Product))
    (hscanned : (keysA scannedProducts).Nodup)
    (id : String) (p ex : Product)
    (hadded : lookupA (diffProducts catalogProducts scannedProducts).2 id = some p)
    (hex : lookupA catalogProducts id = some ex)
    (hexne : ex.Versions ≠ []) :
    lookupA (incorporateNewProducts catalogProducts
        (diffProducts catalogProducts scannedProducts).2) id =
      some { p with Versions := ex.Versions } ∧
    (∀ name, lookupA ({ p with Versions := ex.Versions } : Product).Versions name =
      lookupA ex.Versions name) ∧
    (∃ pn, lookupA scannedProducts id = some pn ∧
      ({ p with Versions := ex.Versions } : Product) =
        { pn with Versions := ex.Versions }) := by
  have hnodupAdded : (keysA (diffProducts catalogProducts scannedProducts).2).Nodup :=
    List.Nodup.sublist (keysA_findMissing_sublist catalogProducts scannedProducts) hscanned
  have hlen : ex.Versions.length > 0 := List.length_pos.mpr hexne
  refine ⟨?_, fun name => rfl, ?_⟩
  · rw [lookupA_incorporateNewProducts _ _ hnodupAdded id p hadded, hex]
    simp [hlen]
  · have hchar := lookupA_findMissing catalogProducts scannedProducts hscanned id
    simp only [diffProducts] at hadded
    rw [hchar] at hadded
    cases hn : lookupA scannedProducts id with
    | none => rw [hn] at hadded; simp at hadded
    | some pn =>
      rw [hn, hex] at hadded
      by_cases hv : ((pn.Versions.filter fun e =>
          (lookupA ex.Versions e.1).isNone).length > 0)
      · simp only [hv, if_pos, Option.some.injEq] at hadded
        refine ⟨pn, rfl, ?_⟩
        rw [← hadded]
      · simp only [hv, if_false] at hadded
        cases hadded

/-- Witness for the C2 theorem at concrete product maps. -/
theorem buildProductCatalog_incorporation_retains_versions_witness :
    (keysA sampleNewProducts).Nodup ∧
    (lookupA (incorporateNewProducts sampleOldProducts
        (diffProducts sampleOldProducts sampleNewProducts).2) "ubuntu:noble:amd64:cloud" =
      some { (Option.get! (lookupA (diffProducts sampleOldProducts sampleNewProducts).2
          "ubuntu:noble:amd64:cloud")) with Versions := [("v1", sampleVersion 1)] }) := by
  refine ⟨by decide, ?_⟩
  have h := buildProductCatalog_incorporation_retains_versions
    sampleOldProducts sampleNewProducts (by decide) "ubuntu:noble:amd64:cloud"
    (Option.get! (lookupA (diffProducts sampleOldProducts sampleNewProducts).2
      "ubuntu:noble:amd64:cloud"))
    { Distro := "ubuntu", Release := "noble", Architecture := "amd64",
      Variant := "cloud", Versions := [("v1", sampleVersion 1)] }
    (by decide) (by decide) (by decide)
  exact h.1

/-! ## Phase-1 checksum verification (cmd_build.go buildProductCatalog)

A phase-1 job reads a new version with hashes and, when a SHA256SUMS map is
present, compares every item's computed hash against the manifest entry.
The tolerance branch for delta files tests the boolean `ok` bound earlier by
the statement `_, ok := catalog.Products[id]` (whether the product already
existed in the catalog), not whether the manifest contains an entry for the
delta file as the adjacent comment describes; a missing manifest entry reads
as the empty string. -/

/-- The checksum-verification loop of a phase-1 build job.  Returns true
when the version passes and may be inserted into the catalog. -/
def checksumsVerify (productExisted : Bool) (version : Version) : Bool :=
  match version.Checksums with
  | none => true
  | some checksums =>
    version.Items.all fun e =>
      let checksum := (lookupA checksums e.1).getD ""
      if !productExisted &&
          (e.2.Ftype == ItemTypeDiskKVMDelta || e.2.Ftype == ItemTypeSquashfsDelta) then
        true
      else
        checksum == e.2.SHA256

/-- The catalog update a phase-1 job performs after verification: on any
checksum failure the job returns without inserting the version. -/
def phase1AddVersion (productExisted : Bool) (products : List (String × Product))
    (id versionName : String) (version : Version) : List (String × Product) :=
  if checksumsVerify productExisted version then
    match lookupA products id with
    | some p =>
        insertA products id { p with Versions := insertA p.Versions versionName version }
    | none => products
  else
    products

/-- A scanned version whose regular items match the manifest and that
carries a delta item for which the manifest has no entry. -/
def versionDeltaNoManifestEntry : Version :=
  { incomplete := false
    Checksums := some [("lxd.tar.xz", "aaa"), ("disk.qcow2", "bbb")]
    Items :=
      [("lxd.tar.xz", { Ftype := "lxd.tar.xz", SHA256 := "aaa" }),
       ("disk.qcow2", { Ftype := "disk-kvm.img", SHA256 := "bbb" }),
       ("disk.v1.qcow2.vcdiff",
        { Ftype := "disk-kvm.img.vcdiff", SHA256 := "ccc", DeltaBase := "v1" })] }

/-- A scanned version whose delta item has a mismatching manifest entry. -/
def versionDeltaWrongManifestEntry : Version :=
  { incomplete := false
    Checksums := some
      [("lxd.tar.xz", "aaa"), ("disk.qcow2", "bbb"), ("disk.v1.qcow2.vcdiff", "wrong")]
    Items :=
      [("lxd.tar.xz", { Ftype := "lxd.tar.xz", SHA256 := "aaa" }),
       ("disk.qcow2", { Ftype := "disk-kvm.img", SHA256 := "bbb" }),
       ("disk.v1.qcow2.vcdiff",
        { Ftype := "disk-kvm.img.vcdiff", SHA256 := "ccc", DeltaBase := "v1" })] }

/-- A scanned version whose qcow2 item does not match the manifest. -/
def versionQcow2Mismatch : Version :=
  { incomplete := false
    Checksums := some [("lxd.tar.xz", "aaa"), ("disk.qcow2", "zzz")]
    Items :=
      [("lxd.tar.xz", { Ftype := "lxd.tar.xz", SHA256 := "aaa" }),
       ("disk.qcow2", { Ftype := "disk-kvm.img", SHA256 := "bbb" })] }

/-- C3.  The claim says a delta item absent from the SHA256SUMS manifest is
always tolerated, and that any manifest mismatch rejects the version.  The
code keys the delta tolerance on whether the product already existed in the
catalog: for an existing product, a delta item with no manifest entry makes
the empty-string manifest value compare against the computed hash and the
version is rejected (first and fourth conjuncts), contradicting both the
claim and the comment inside the loop; for a brand-new product, even a delta
item whose manifest entry mismatches is tolerated (third conjunct),
contradicting the mismatch half of the claim.  Ordinary items do reject on
mismatch regardless (last two conjuncts). -/
theorem checksum_delta_tolerance_keyed_on_product_existence :
    checksumsVerify true versionDeltaNoManifestEntry = false ∧
    checksumsVerify false versionDeltaNoManifestEntry = true ∧
    checksumsVerify false versionDeltaWrongManifestEntry = true ∧
    phase1AddVersion true sampleOldProducts "ubuntu:noble:amd64:cloud" "v2"
        versionDeltaNoManifestEntry = sampleOldProducts ∧
    checksumsVerify true versionQcow2Mismatch = false ∧
    checksumsVerify false versionQcow2Mismatch = false := by
  decide

/-! ## Retention prune (cmd_prune.go pruneStreamProductVersions)

For each product of the catalog the version names are sorted ascending and
reversed (descending); when more than `retain` versions exist the names past
the first `retain` are deleted from the product's Versions map and their
on-disk paths are collected for removal. -/

/-- slices.Sort followed by slices.Reverse on version names. -/
def sortDescStrings (l : List String) : List String :=
  (l.insertionSort strLeP).reverse

theorem sortDescStrings_perm (l : List String) : (sortDescStrings l).Perm l :=
  (List.reverse_perm _).trans (List.perm_insertionSort strLeP l)

theorem sortDescStrings_pairwise_ge (l : List String) :
    List.Pairwise (fun a b => strLeP b a) (sortDescStrings l) := by
  apply List.pairwise_reverse.mpr
  exact List.sorted_insertionSort strLeP l

theorem sortDescStrings_strict (l : List String) (h : l.Nodup) :
    List.Pairwise (fun a b => strLeP b a ∧ a ≠ b) (sortDescStrings l) := by
  have hnd : (sortDescStrings l).Nodup :=
    List.Nodup.perm h (sortDescStrings_perm l).symm
  exact List.Pairwise.and (sortDescStrings_pairwise_ge l) hnd

theorem strict_head_lt {a : String} {tl : List String}
    (h : ∀ y ∈ tl, strLeP y a ∧ a ≠ y) :
    ∀ y ∈ tl, strLt y a = true ∧ strLt a y = false := by
  intro y hy
  obtain ⟨hle, hne⟩ := h y hy
  constructor
  · simp only [strLt, Bool.and_eq_true, Bool.not_eq_true']
    refine ⟨hle, ?_⟩
    simp only [beq_eq_false_iff_ne, ne_eq]
    exact fun he => hne he.symm
  · simp only [strLt, Bool.and_eq_false_iff]
    by_cases hab : strLe a y = true
    · exact absurd (strLe_antisymm hab hle) hne
    · exact Or.inl (by simpa using hab)

theorem strLt_self (a : String) : strLt a a = false := by
  simp [strLt]

/-- Membership in the first k elements of a strictly descending list is
equivalent to membership in the list with fewer than k strictly larger
elements: the take is exactly the k lexicographically-largest names. -/
theorem mem_take_of_sortedDesc (l : List String)
    (hsort : List.Pairwise (fun a b => strLeP b a ∧ a ≠ b) l) (k : Nat) (x : String) :
    x ∈ l.take k ↔ x ∈ l ∧ (l.filter (fun y => strLt x y)).length < k := by
  induction l generalizing k with
  | nil => simp
  | cons a tl ih =>
    rcases List.pairwise_cons.mp hsort with ⟨hhead, htail⟩
    cases k with
    | zero => simp
    | succ k' =>
      by_cases hx : x = a
      · subst hx
        have hfilter : (x :: tl).filter (fun y => strLt x y) = [] := by
          apply List.filter_eq_nil_iff.mpr
          intro b hb
          rcases List.mem_cons.mp hb with rfl | hbtl
          · simp [strLt_self]
          · simp [(strict_head_lt hhead b hbtl).2]
        simp [List.take_succ_cons, hfilter]
      · have hmem_take : x ∈ (a :: tl).take (k' + 1) ↔ x ∈ tl.take k' := by
          simp [List.take_succ_cons, hx]
        have hmem_cons : x ∈ a :: tl ↔ x ∈ tl := by simp [hx]
        rw [hmem_take, hmem_cons]
        by_cases hmem : x ∈ tl
        · have hlt : strLt x a = true := (strict_head_lt hhead x hmem).1
          have hfilter : (a :: tl).filter (fun y => strLt x y) =
              a :: tl.filter (fun y => strLt x y) := by
            simp [List.filter_cons, hlt]
          rw [hfilter]
          simp only [List.length_cons]
          rw [ih htail k']
          constructor
          · rintro ⟨h1, h2⟩
            exact ⟨h1, by omega⟩
          · rintro ⟨h1, h2⟩
            exact ⟨h1, by omega⟩
        · constructor
          · intro h
            exact absurd (List.take_subset k' tl h) hmem
          · rintro ⟨h1, _⟩
            exact absurd h1 hmem

/-- The per-product pruning step: sort names descending, keep the first
`retain`, delete the rest from the Versions map and report them. -/
def pruneOneProduct (retain : Nat) (p : Product) : Product × List String :=
  let versions := sortDescStrings (keysA p.Versions)
  if versions.length ≤ retain then (p, [])
  else
    let discard := versions.drop retain
    ({ p with Versions := discard.foldl (fun m v => eraseA m v) p.Versions }, discard)

/-- pruneStreamProductVersions: at least one version must be retained; the
catalog is rewritten with the pruned Versions maps and the on-disk paths of
all discarded versions are collected for removal. -/
def pruneStreamProductVersions (rootDir streamVersion streamName : String)
    (retain : Int) (catalog : ProductCatalog) : Option (ProductCatalog × List String) :=
  if retain < 1 then none
  else
    let retainN := retain.toNat
    let prunedProducts := catalog.Products.map fun e =>
      (e.1, (pruneOneProduct retainN e.2).1)
    let discardVersions := catalog.Products.flatMap fun e =>
      (pruneOneProduct retainN e.2).2.map fun v =>
        goJoin2 (goJoin2 (goJoin2 rootDir streamName) e.2.RelPath) v
    some ({ catalog with Products := prunedProducts }, discardVersions)

theorem foldl_eraseA_eq_filter {V : Type} (ds : List String) (m : List (String × V)) :
    ds.foldl (fun acc v => eraseA acc v) m = m.filter (fun e => !(ds.contains e.1)) := by
  induction ds generalizing m with
  | nil => simp [List.filter_eq_self]
  | cons d rest ih =>
    simp only [List.foldl_cons]
    rw [ih (eraseA m d)]
    simp only [eraseA, List.filter_filter]
    apply List.filter_congr
    intro e _
    simp only [List.contains_cons]
    cases hed : e.1 == d <;> cases hrest : rest.contains e.1 <;> simp [hed, hrest]

theorem keysA_filter_key {V : Type} (p : String → Bool) (m : List (String × V)) :
    keysA (m.filter fun e => p e.1) = (keysA m).filter p := by
  induction m with
  | nil => simp [keysA]
  | cons e rest ih =>
    simp only [keysA, List.map_cons] at ih ⊢
    by_cases hp : p e.1
    · simp [List.filter_cons, hp, ih]
    · simp [List.filter_cons, hp, ih]

theorem length_filter_lt_of_mem {l : List String} {x : String} {p : String → Bool}
    (hx : x ∈ l) (hp : p x = false) : (l.filter p).length < l.length := by
  induction l with
  | nil => simp at hx
  | cons a tl ih =>
    rcases List.mem_cons.mp hx with rfl | htl
    · rw [List.filter_cons, hp]
      simp only [List.length_cons]
      exact Nat.lt_succ_of_le (List.length_filter_le _ _)
    · rw [List.filter_cons]
      cases hpa : p a
      · simp only [List.length_cons]
        exact Nat.lt_succ_of_lt (ih htl)
      · simp only [List.length_cons]
        exact Nat.succ_lt_succ (ih htl)

theorem contains_eq_true_of_mem {l : List String} {x : String} (hx : x ∈ l) :
    l.contains x = true := by
  induction l with
  | nil => simp at hx
  | cons a tl ih =>
    rcases List.mem_cons.mp hx with rfl | htl
    · simp [List.contains_cons]
    · simp only [List.contains_cons, Bool.or_eq_true, beq_iff_eq]
      exact Or.inr (by simpa using ih htl)

theorem mem_of_contains_eq_true {l : List String} {x : String}
    (hx : l.contains x = true) : x ∈ l := by
  induction l with
  | nil => simp [List.contains] at hx
  | cons a tl ih =>
    simp only [List.contains_cons, Bool.or_eq_true, beq_iff_eq] at hx
    rcases hx with rfl | htl
    · exact List.mem_cons_self _ _
    · exact List.mem_cons_of_mem _ (ih htl)

theorem pruneOneProduct_spec (retain : Nat) (p : Product)
    (hnodup : (keysA p.Versions).Nodup) :
    (keysA (pruneOneProduct retain p).1.Versions).length ≤ retain ∧
    (∀ name, name ∈ keysA (pruneOneProduct retain p).1.Versions ↔
      name ∈ keysA p.Versions ∧
        ((keysA p.Versions).filter (fun y => strLt name y)).length < retain) ∧
    ((keysA p.Versions).length ≤ retain → (pruneOneProduct retain p).1 = p) ∧
    (pruneOneProduct retain p).2 = (sortDescStrings (keysA p.Versions)).drop retain ∧
    (∀ name, name ∈ (pruneOneProduct retain p).2 →
      lookupA (pruneOneProduct retain p).1.Versions name = none) ∧
    (∀ name, name ∈ keysA p.Versions →
      name ∉ keysA (pruneOneProduct retain p).1.Versions →
      name ∈ (pruneOneProduct retain p).2) := by
  have hperm : (sortDescStrings (keysA p.Versions)).Perm (keysA p.Versions) :=
    sortDescStrings_perm _
  have hsdlen : (sortDescStrings (keysA p.Versions)).length = (keysA p.Versions).length :=
    hperm.length_eq
  by_cases hle : (sortDescStrings (keysA p.Versions)).length ≤ retain
  · have hfst : (pruneOneProduct retain p).1 = p := by
      simp [pruneOneProduct, hle]
    have hsnd : (pruneOneProduct retain p).2 = [] := by
      simp [pruneOneProduct, hle]
    rw [hfst, hsnd]
    refine ⟨by omega, ?_, fun _ => rfl, ?_, by simp, ?_⟩
    · intro name
      constructor
      · intro hmem
        refine ⟨hmem, ?_⟩
        have := @length_filter_lt_of_mem (keysA p.Versions) name
          (fun y => strLt name y) hmem (strLt_self name)
        omega
      · exact fun h => h.1
    · rw [List.drop_eq_nil_of_le hle]
    · intro name h1 h2
      exact absurd h1 h2
  · have hgt : retain < (sortDescStrings (keysA p.Versions)).length := by omega
    have hfst : (pruneOneProduct retain p).1.Versions =
        ((sortDescStrings (keysA p.Versions)).drop retain).foldl
          (fun m v => eraseA m v) p.Versions := by
      simp [pruneOneProduct, hle]
    have hsnd : (pruneOneProduct retain p).2 =
        (sortDescStrings (keysA p.Versions)).drop retain := by
      simp [pruneOneProduct, hle]
    set sd := sortDescStrings (keysA p.Versions) with hsd
    set discard := sd.drop retain with hdiscard
    set keep := sd.take retain with hkeep
    have hsplit : keep ++ discard = sd := List.take_append_drop retain sd
    have hnodupsd : sd.Nodup := List.Nodup.perm hnodup hperm.symm
    have hdisj : ∀ x ∈ keep, x ∉ discard := by
      intro x hxk hxd
      have hnd2 : sd.Nodup := hnodupsd
      rw [← hsplit] at hnd2
      rcases List.nodup_append.mp hnd2 with ⟨_, _, hd⟩
      exact hd hxk hxd
    have hfold : discard.foldl (fun m v => eraseA m v) p.Versions =
        p.Versions.filter (fun e => !(discard.contains e.1)) :=
      foldl_eraseA_eq_filter discard p.Versions
    have hkeys : keysA (p.Versions.filter (fun e => !(discard.contains e.1))) =
        (keysA p.Versions).filter (fun k => !(discard.contains k)) :=
      keysA_filter_key (fun k => !(discard.contains k)) p.Versions
    have hkeysperm : ((keysA p.Versions).filter (fun k => !(discard.contains k))).Perm keep := by
      have h1 : ((keysA p.Versions).filter (fun k => !(discard.contains k))).Perm
          (sd.filter (fun k => !(discard.contains k))) :=
        List.Perm.filter _ hperm.symm
      have h2 : sd.filter (fun k => !(discard.contains k)) = keep := by
        rw [← hsplit, List.filter_append]
        have hkeepf : keep.filter (fun k => !(discard.contains k)) = keep := by
          apply List.filter_eq_self.mpr
          intro a ha
          have hnc : a ∉ discard := hdisj a ha
          simp [hnc, contains_eq_true_of_mem]
        have hdiscf : discard.filter (fun k => !(discard.contains k)) = [] := by
          apply List.filter_eq_nil_iff.mpr
          intro a ha
          simp [ha, contains_eq_true_of_mem ha]
        rw [hkeepf, hdiscf, List.append_nil]
      rw [h2] at h1
      exact h1
    have hstrict : List.Pairwise (fun a b => strLeP b a ∧ a ≠ b) sd :=
      sortDescStrings_strict _ hnodup
    have hmemtake : ∀ x, x ∈ keep ↔ x ∈ sd ∧
        (sd.filter (fun y => strLt x y)).length < retain := by
      intro x
      exact mem_take_of_sortedDesc sd hstrict retain x
    rw [hfst, hsnd, hfold, hkeys]
    refine ⟨?_, ?_, ?_, rfl, ?_, ?_⟩
    · rw [hkeysperm.length_eq]
      calc keep.length = min retain sd.length := List.length_take retain sd
        _ ≤ retain := Nat.min_le_left _ _
    · intro name
      rw [List.Perm.mem_iff hkeysperm, hmemtake name, List.Perm.mem_iff hperm]
      have hfl : (sd.filter (fun y => strLt name y)).length =
          ((keysA p.Versions).filter (fun y => strLt name y)).length :=
        (List.Perm.filter _ hperm).length_eq
      rw [hfl]
    · intro hlen
      omega
    · intro name hmem
      rw [lookupA_filter_key (fun k => !(discard.contains k)) p.Versions name]
      simp [hmem, contains_eq_true_of_mem hmem]
    · intro name h1 h2
      rw [List.Perm.mem_iff hkeysperm] at h2
      have hsdmem : name ∈ sd := (List.Perm.mem_iff hperm).mpr h1
      rw [← hsplit] at hsdmem
      rcases List.mem_append.mp hsdmem with h | h
      · exact absurd h h2
      · exact h

/-- C4.  For every catalog and retain at least 1, the retention prune
succeeds and, for every product: the pruned catalog keeps at most retain
versions; a name is kept exactly when it belongs to the product's original
version names and fewer than retain original names are strictly larger
(byte-lexicographically), i.e. the kept set is exactly the retain largest
names; products with at most retain versions are unchanged; and every
removed version is absent from the pruned Versions map while its on-disk
path is collected for removal. -/
theorem pruneStreamProductVersions_retention
    (rootDir streamVersion streamName : String) (retain : Int)
    (catalog : ProductCatalog) (hretain : 1 ≤ retain)
    (hwf : ∀ e ∈ catalog.Products, (keysA e.2.Versions).Nodup) :
    ∃ prunedCatalog paths,
      pruneStreamProductVersions rootDir streamVersion streamName retain catalog =
        some (prunedCatalog, paths) ∧
      ∀ id p, lookupA catalog.Products id = some p →
        ∃ p', lookupA prunedCatalog.Products id = some p' ∧
          (keysA p'.Versions).length ≤ retain.toNat ∧
          (∀ name, name ∈ keysA p'.Versions ↔
            name ∈ keysA p.Versions ∧
              ((keysA p.Versions).filter (fun y => strLt name y)).length < retain.toNat) ∧
          ((keysA p.Versions).length ≤ retain.toNat → p' = p) ∧
          (∀ name, name ∈ keysA p.Versions → name ∉ keysA p'.Versions →
            lookupA p'.Versions name = none ∧
            goJoin2 (goJoin2 (goJoin2 rootDir streamName) p.RelPath) name ∈ paths) := by
  have hguard : ¬retain < 1 := by omega
  refine ⟨_, _, by rw [pruneStreamProductVersions, if_neg hguard], ?_⟩
  intro id p hp
  have hnodup : (keysA p.Versions).Nodup := hwf (id, p) (lookupA_mem hp)
  obtain ⟨hlen, hmemiff, hunch, hcollect, hnone, hback⟩ :=
    pruneOneProduct_spec retain.toNat p hnodup
  refine ⟨(pruneOneProduct retain.toNat p).1, ?_, hlen, hmemiff, hunch, ?_⟩
  · have hmap := lookupA_map_value
      (fun _ v => (pruneOneProduct retain.toNat v).1) catalog.Products id
    simp only at hmap
    rw [hmap, hp]
    rfl
  · intro name h1 h2
    refine ⟨hnone name (hback name h1 h2), ?_⟩
    apply List.mem_flatMap.mpr
    refine ⟨(id, p), lookupA_mem hp, ?_⟩
    apply List.mem_map.mpr
    exact ⟨name, hback name h1 h2, rfl⟩

/-- A catalog with one product holding four versions, for witnesses. -/
def sampleRetentionCatalog : ProductCatalog :=
  { ContentID := "images"
    Format := "products:1.0"
    DataType := "image-downloads"
    Products :=
      [("ubuntu:noble:amd64:cloud",
        { Distro := "ubuntu", Release := "noble", Architecture := "amd64",
          Variant := "cloud",
          Versions :=
            [("2024_01_01", sampleVersion 1), ("2024_01_05", sampleVersion 2),
             ("2024_05_01", sampleVersion 3), ("2025_01_01", sampleVersion 4)] })] }

/-- Witness for the C4 theorem at a concrete catalog with retain 3. -/
theorem pruneStreamProductVersions_retention_witness :
    ∃ prunedCatalog paths,
      pruneStreamProductVersions "root" "v1" "images" 3 sampleRetentionCatalog =
        some (prunedCatalog, paths) ∧
      ∀ id p, lookupA sampleRetentionCatalog.Products id = some p →
        ∃ p', lookupA prunedCatalog.Products id = some p' ∧
          (keysA p'.Versions).length ≤ (3 : Int).toNat ∧
          (∀ name, name ∈ keysA p'.Versions ↔
            name ∈ keysA p.Versions ∧
              ((keysA p.Versions).filter (fun y => strLt name y)).length <
                (3 : Int).toNat) ∧
          ((keysA p.Versions).length ≤ (3 : Int).toNat → p' = p) ∧
          (∀ name, name ∈ keysA p.Versions → name ∉ keysA p'.Versions →
            lookupA p'.Versions name = none ∧
            goJoin2 (goJoin2 (goJoin2 "root" "images") p.RelPath) name ∈ paths) :=
  pruneStreamProductVersions_retention "root" "v1" "images" 3 sampleRetentionCatalog
    (by decide) (by decide)

/-! ## Splitting lemmas for extensions and path elements -/

theorem splitOnChar_no_sep {c : Char} {u : List Char} (hu : ∀ x ∈ u, x ≠ c) :
    splitOnChar c u = [u] := by
  induction u with
  | nil => rfl
  | cons x rest ih =>
    have hx : x ≠ c := hu x (List.mem_cons_self _ _)
    have hrest := ih (fun y hy => hu y (List.mem_cons_of_mem _ hy))
    simp only [splitOnChar, hx, if_false, hrest]

theorem splitOnChar_append_sep (c : Char) (t u : List Char) (hu : ∀ x ∈ u, x ≠ c) :
    splitOnChar c (t ++ c :: u) = splitOnChar c t ++ [u] := by
  induction t with
  | nil =>
    simp only [List.nil_append, splitOnChar, if_pos rfl, splitOnChar_no_sep hu]
    rfl
  | cons x t2 ih =>
    by_cases hx : x = c
    · subst hx
      rw [List.cons_append]
      rw [show splitOnChar x (x :: (t2 ++ x :: u)) = [] :: splitOnChar x (t2 ++ x :: u) by
        simp [splitOnChar]]
      rw [show splitOnChar x (x :: t2) = [] :: splitOnChar x t2 by simp [splitOnChar]]
      rw [ih, List.cons_append]
    · rw [List.cons_append]
      rw [show splitOnChar c (x :: (t2 ++ c :: u)) =
          (match splitOnChar c (t2 ++ c :: u) with
           | [] => [[x]]
           | p :: ps => (x :: p) :: ps) by simp [splitOnChar, hx]]
      rw [show splitOnChar c (x :: t2) =
          (match splitOnChar c t2 with
           | [] => [[x]]
           | p :: ps => (x :: p) :: ps) by simp [splitOnChar, hx]]
      obtain ⟨p, ps, hps⟩ := List.exists_cons_of_ne_nil (splitOnChar_ne_nil c t2)
      rw [ih, hps]
      rfl

theorem data_goJoin2 (a b : String) : (goJoin2 a b).data = a.data ++ '/' :: b.data := by
  simp [goJoin2, String.data_append]

theorem goBase_eq_of_suffix (p k : String) (hk : ∀ x ∈ k.data, x ≠ '/')
    (h : ∃ l, p.data = l ++ '/' :: k.data) : goBase p = k := by
  obtain ⟨l, hl⟩ := h
  rw [goBase, hl, splitOnChar_append_sep '/' l k.data hk]
  rw [List.getLastD_concat]

theorem goBase_goJoin2 (a k : String) (hk : ∀ x ∈ k.data, x ≠ '/') :
    goBase (goJoin2 a k) = k :=
  goBase_eq_of_suffix _ k hk ⟨a.data, data_goJoin2 a k⟩

/-! ## Hasher (shared.FileHash)

FileHash streams every given file, in order, into a single hash state and
returns the hex digest of the final state; the digest of a byte sequence is
abstracted by the `digest` parameter.  The empty path list returns the empty
string; a file that cannot be opened yields none (the Go error return). -/

/-- An abstract filesystem assigning byte contents to paths. -/
def FS : Type := String → Option (List Nat)

/-- shared.FileHash: one hash accumulator fed by all files in order. -/
def FileHash (digest : List Nat → String) (fs : FS) (paths : List String) :
    Option String :=
  if paths = [] then some ""
  else
    (paths.foldlM (fun acc path => (fs path).map (fun bytes => acc ++ bytes)) []).map
      digest

theorem foldlM_concat_contents (fs : FS) (contents : String → List Nat)
    (paths : List String) (hall : ∀ p ∈ paths, fs p = some (contents p)) :
    ∀ acc, paths.foldlM (fun acc path => (fs path).map (fun bytes => acc ++ bytes)) acc =
      some (acc ++ paths.flatMap contents) := by
  induction paths with
  | nil => intro acc; simp
  | cons p rest ih =>
    intro acc
    have hp := hall p (List.mem_cons_self _ _)
    have hrest := ih (fun q hq => hall q (List.mem_cons_of_mem _ hq))
    simp only [List.foldlM_cons, hp, Option.map_some', Option.bind_eq_bind,
      Option.some_bind, hrest (acc ++ contents p)]
    simp [List.flatMap_cons]

/-- FileHash of present files is the digest of the concatenation of their
contents in order: a single accumulator, not a hash of hashes. -/
theorem FileHash_concat (digest : List Nat → String) (fs : FS)
    (contents : String → List Nat) (paths : List String)
    (hall : ∀ p ∈ paths, fs p = some (contents p)) (hne : paths ≠ []) :
    FileHash digest fs paths = some (digest (paths.flatMap contents)) := by
  rw [FileHash, if_neg hne, foldlM_concat_contents fs contents paths hall []]
  simp

/-! ## GetItem (stream/index.go)

GetItem stats the file, records size and path, optionally hashes it, and
derives the file-type tag from the extension; for vcdiff files the delta
base is read out of the dot-separated file name by absolute index, which Go
would abort on were it out of range — modelled by Option. -/

/-- A directory entry as the scanner sees it: the stat name, directory flag
and size, the raw bytes (for hashing), the text (for SHA256SUMS parsing) and
the parsed image config (none models a YAML parse failure). -/
structure GoFile where
  name : String
  isDir : Bool := false
  size : Int := 0
  bytes : List Nat := []
  text : String := ""
  config : Option ImageConfig := none
deriving DecidableEq, Repr

/-- shared.HasSuffix: true if the key matches any of the given suffixes. -/
def HasSuffix (key : String) (suffixes : List String) : Bool :=
  suffixes.any (fun s => goHasSuffix key s)

/-- GetItem.  The file's stat name equals the final element of the item
path, so filepath.Ext(itemPath) is the extension of the name. -/
def GetItem (digest : List Nat → String) (rootDir itemRelPath : String)
    (file : GoFile) (calcHashes : Bool) : Option Item := do
  let itemPath := goJoin2 rootDir itemRelPath
  let sha ←
    if calcHashes then
      FileHash digest (fun p => if p = itemPath then some file.bytes else none)
        [itemPath]
    else some ""
  let base : Item := { Path := itemRelPath, Size := file.size, SHA256 := sha }
  if goExt file.name = ItemExtSquashfs then
    some { base with Ftype := ItemTypeSquashfs }
  else if goExt file.name = ItemExtDiskKVM then
    some { base with Ftype := ItemTypeDiskKVM }
  else if goExt file.name = ".vcdiff" then
    let parts := goSplit file.name '.'
    if goHasSuffix file.name ItemExtDiskKVMDelta then
      (parts[parts.length - 3]?).map fun db =>
        { base with Ftype := ItemTypeDiskKVMDelta, DeltaBase := db }
    else
      (parts[parts.length - 2]?).map fun db =>
        { base with Ftype := ItemTypeSquashfsDelta, DeltaBase := db }
  else
    some { base with Ftype := file.name }

theorem goHasSuffix_iff (s suffix : String) :
    goHasSuffix s suffix = true ↔ ∃ t, s.data = t ++ suffix.data := by
  rw [goHasSuffix, List.isSuffixOf_iff_suffix]
  constructor
  · rintro ⟨t, ht⟩
    exact ⟨t, ht.symm⟩
  · rintro ⟨t, ht⟩
    exact ⟨t, ht.symm⟩

theorem goSplit_suffix_vcdiff (name : String) (t : List Char)
    (h : name.data = t ++ ".vcdiff".data) :
    goSplit name '.' = (splitOnChar '.' t).map (fun l => ⟨l⟩) ++ ["vcdiff"] := by
  have hv : ∀ x ∈ "vcdiff".data, x ≠ '.' := by decide
  have hdata : name.data = t ++ '.' :: "vcdiff".data := h
  rw [goSplit, hdata, splitOnChar_append_sep '.' t "vcdiff".data hv, List.map_append]
  rfl

theorem goExt_of_vcdiff (name : String) (hsuf : goHasSuffix name ".vcdiff" = true) :
    goExt name = ".vcdiff" := by
  obtain ⟨t, ht⟩ := (goHasSuffix_iff name ".vcdiff").mp hsuf
  have hv : ∀ x ∈ "vcdiff".data, x ≠ '.' := by decide
  have hdata : name.data = t ++ '.' :: "vcdiff".data := ht
  rw [goExt, hdata, splitOnChar_append_sep '.' t "vcdiff".data hv]
  have hlen : 1 < (splitOnChar '.' t ++ ["vcdiff".data]).length := by
    have := splitOnChar_ne_nil '.' t
    have hpos : 0 < (splitOnChar '.' t).length := List.length_pos.mpr this
    simp only [List.length_append, List.length_cons, List.length_nil]
    omega
  simp only [Nat.not_le.mpr hlen, if_false]
  rw [List.getLastD_concat]
  rfl

theorem getElem?_reverse_getD {α : Type} [Inhabited α] (l : List α) (i : Nat)
    (h : i < l.length) :
    l[l.length - 1 - i]? = some (l.reverse.getD i default) := by
  have hrev : l.reverse[i]? = l[l.length - 1 - i]? :=
    List.getElem?_reverse (by simpa using h)
  have hlt : i < l.reverse.length := by simpa using h
  rw [← hrev, List.getElem?_eq_getElem hlt, List.getD_eq_getElem l.reverse default hlt]

/-- C10.  For every file whose name ends in ".vcdiff", GetItem's delta-base
extraction never indexes out of range: a name ending in ".qcow2.vcdiff"
splits on dots into at least three segments and any other ".vcdiff" name
into at least two, so GetItem totally returns an Item whose DeltaBase is the
third-from-last (resp. second-from-last) dot-segment of the file name. -/
theorem GetItem_vcdiff_total (digest : List Nat → String)
    (rootDir itemRelPath : String) (file : GoFile) (calcHashes : Bool)
    (hsuf : goHasSuffix file.name ".vcdiff" = true) :
    2 ≤ (goSplit file.name '.').length ∧
    ∃ item, GetItem digest rootDir itemRelPath file calcHashes = some item ∧
      ((goHasSuffix file.name ".qcow2.vcdiff" = true →
        3 ≤ (goSplit file.name '.').length ∧
        item.Ftype = ItemTypeDiskKVMDelta ∧
        item.DeltaBase = (goSplit file.name '.').reverse.getD 2 "") ∧
      (goHasSuffix file.name ".qcow2.vcdiff" = false →
        item.Ftype = ItemTypeSquashfsDelta ∧
        item.DeltaBase = (goSplit file.name '.').reverse.getD 1 "")) := by
  obtain ⟨t, ht⟩ := (goHasSuffix_iff file.name ".vcdiff").mp hsuf
  have hsplit := goSplit_suffix_vcdiff file.name t ht
  have hlen2 : 2 ≤ (goSplit file.name '.').length := by
    rw [hsplit]
    have hpos : 0 < (splitOnChar '.' t).length :=
      List.length_pos.mpr (splitOnChar_ne_nil '.' t)
    simp only [List.length_append, List.length_map, List.length_cons, List.length_nil]
    omega
  have hext : goExt file.name = ".vcdiff" := goExt_of_vcdiff file.name hsuf
  have hnotsq : ¬goExt file.name = ItemExtSquashfs := by rw [hext]; decide
  have hnotkvm : ¬goExt file.name = ItemExtDiskKVM := by rw [hext]; decide
  have hfh : FileHash digest
      (fun p => if p = goJoin2 rootDir itemRelPath then some file.bytes else none)
      [goJoin2 rootDir itemRelPath] =
      some (digest ([goJoin2 rootDir itemRelPath].flatMap fun _ => file.bytes)) := by
    apply FileHash_concat digest
      (fun p => if p = goJoin2 rootDir itemRelPath then some file.bytes else none)
      (fun _ => file.bytes) [goJoin2 rootDir itemRelPath]
    · intro p hp
      rw [List.mem_singleton] at hp
      subst hp
      simp
    · simp
  refine ⟨hlen2, ?_⟩
  by_cases hq : goHasSuffix file.name ".qcow2.vcdiff" = true
  · obtain ⟨t2, ht2⟩ := (goHasSuffix_iff file.name ".qcow2.vcdiff").mp hq
    have hqv : ∀ x ∈ "qcow2".data, x ≠ '.' := by decide
    have hvv : ∀ x ∈ "vcdiff".data, x ≠ '.' := by decide
    have hdata : file.name.data =
        (t2 ++ '.' :: "qcow2".data) ++ '.' :: "vcdiff".data := by
      rw [ht2]
      simp [List.append_assoc]
    have hsplit3 : goSplit file.name '.' =
        ((splitOnChar '.' t2).map (fun l => ⟨l⟩) ++ ["qcow2"]) ++ ["vcdiff"] := by
      rw [goSplit, hdata, splitOnChar_append_sep '.' _ _ hvv,
        splitOnChar_append_sep '.' _ _ hqv, List.map_append, List.map_append]
      rfl
    have hlen3 : 3 ≤ (goSplit file.name '.').length := by
      rw [hsplit3]
      have hpos : 0 < (splitOnChar '.' t2).length :=
        List.length_pos.mpr (splitOnChar_ne_nil '.' t2)
      simp only [List.length_append, List.length_map, List.length_cons, List.length_nil]
      omega
    have hidx : ((goSplit file.name '.')[(goSplit file.name '.').length - 3]?) =
        some ((goSplit file.name '.').reverse.getD 2 "") := by
      have h3 : (goSplit file.name '.').length - 3 =
          (goSplit file.name '.').length - 1 - 2 := by omega
      rw [h3]
      exact getElem?_reverse_getD _ 2 (by omega)
    refine ⟨{ Path := itemRelPath, Size := file.size,
              SHA256 := if calcHashes then
                  digest ([goJoin2 rootDir itemRelPath].flatMap fun _ => file.bytes)
                else "",
              Ftype := ItemTypeDiskKVMDelta,
              DeltaBase := (goSplit file.name '.').reverse.getD 2 "" }, ?_, ?_, ?_⟩
    · cases calcHashes
      · simp only [GetItem, Bool.false_eq_true, if_false]
        simp [hnotsq, hnotkvm, hext, ItemExtSquashfs, ItemExtDiskKVM,
          ItemExtDiskKVMDelta, ItemTypeDiskKVMDelta, hq, hidx]
      · simp only [GetItem, if_true]
        simp [hfh, hnotsq, hnotkvm, hext, ItemExtSquashfs, ItemExtDiskKVM,
          ItemExtDiskKVMDelta, ItemTypeDiskKVMDelta, hq, hidx]
    · intro _
      exact ⟨hlen3, rfl, rfl⟩
    · intro hq2
      rw [hq] at hq2
      cases hq2
  · have hq2 : goHasSuffix file.name ".qcow2.vcdiff" = false := by
      cases h2 : goHasSuffix file.name ".qcow2.vcdiff"
      · rfl
      · exact absurd h2 hq
    have hidx : ((goSplit file.name '.')[(goSplit file.name '.').length - 2]?) =
        some ((goSplit file.name '.').reverse.getD 1 "") := by
      have h2 : (goSplit file.name '.').length - 2 =
          (goSplit file.name '.').length - 1 - 1 := by omega
      rw [h2]
      exact getElem?_reverse_getD _ 1 (by omega)
    refine ⟨{ Path := itemRelPath, Size := file.size,
              SHA256 := if calcHashes then
                  digest ([goJoin2 rootDir itemRelPath].flatMap fun _ => file.bytes)
                else "",
              Ftype := ItemTypeSquashfsDelta,
              DeltaBase := (goSplit file.name '.').reverse.getD 1 "" }, ?_, ?_, ?_⟩
    · cases calcHashes
      · simp only [GetItem, Bool.false_eq_true, if_false]
        simp [hnotsq, hnotkvm, hext, ItemExtSquashfs, ItemExtDiskKVM,
          ItemExtDiskKVMDelta, ItemTypeSquashfsDelta, hq2, hidx]
      · simp only [GetItem, if_true]
        simp [hfh, hnotsq, hnotkvm, hext, ItemExtSquashfs, ItemExtDiskKVM,
          ItemExtDiskKVMDelta, ItemTypeSquashfsDelta, hq2, hidx]
    · intro hcontra
      rw [hq2] at hcontra
      cases hcontra
    · intro _
      exact ⟨rfl, rfl⟩


/-- Witness for the C10 theorem on a concrete vcdiff file name. -/
theorem GetItem_vcdiff_total_witness :
    goHasSuffix "disk.20240101.qcow2.vcdiff" ".vcdiff" = true ∧
    (2 ≤ (goSplit "disk.20240101.qcow2.vcdiff" '.').length ∧
    ∃ item, GetItem (fun _ => "") "root" "images/d/r/a/v/2/disk.20240101.qcow2.vcdiff"
        { name := "disk.20240101.qcow2.vcdiff" } true = some item ∧
      ((goHasSuffix "disk.20240101.qcow2.vcdiff" ".qcow2.vcdiff" = true →
        3 ≤ (goSplit "disk.20240101.qcow2.vcdiff" '.').length ∧
        item.Ftype = ItemTypeDiskKVMDelta ∧
        item.DeltaBase = (goSplit "disk.20240101.qcow2.vcdiff" '.').reverse.getD 2 "") ∧
      (goHasSuffix "disk.20240101.qcow2.vcdiff" ".qcow2.vcdiff" = false →
        item.Ftype = ItemTypeSquashfsDelta ∧
        item.DeltaBase = (goSplit "disk.20240101.qcow2.vcdiff" '.').reverse.getD 1 ""))) :=
  ⟨by decide,
   GetItem_vcdiff_total (fun _ => "") "root" "images/d/r/a/v/2/disk.20240101.qcow2.vcdiff"
     { name := "disk.20240101.qcow2.vcdiff" } true (by decide)⟩

/-! ## GetVersion (stream/index.go)

GetVersion reads the directory entries of a version, building Items for
files with allowed extensions, parsing SHA256SUMS and image.yaml, then
computes the combined hashes on the metadata item and decides completeness.
Errors are surfaced through Except; a hidden (dot-prefixed) or incomplete
version fails with versionIncomplete unless incomplete versions were
requested. -/

inductive StreamErr where
  | versionIncomplete
  | versionInvalidImageConfig
  | productInvalidPath
  | indexOutOfRange
  | ioError
deriving DecidableEq, Repr

/-- Break a character list at the first occurrence of the separator. -/
def breakAtChar (c : Char) : List Char → Option (List Char × List Char)
  | [] => none
  | x :: rest =>
    if x = c then some ([], rest)
    else (breakAtChar c rest).map (fun r => (x :: r.1, r.2))

/-- Go strings.SplitN with n = 2 for a one-character separator. -/
def goSplitN2 (s : String) (c : Char) : List String :=
  match breakAtChar c s.data with
  | none => [s]
  | some (a, b) => [⟨a⟩, ⟨b⟩]

/-- ReadChecksumFile parses the SHA256SUMS text into filename-to-checksum
pairs: lines are trimmed, split once on the first space into checksum and
filename, malformed lines are skipped, and a later entry for the same
filename wins. -/
def ReadChecksumFile (text : String) : List (String × String) :=
  (goSplit text '\n').foldl
    (fun checksums rawLine =>
      let line := rawLine.trim
      match goSplitN2 line ' ' with
      | [checksum, filename] => insertA checksums filename.trim checksum
      | _ => checksums)
    []

/-- The filesystem view of a version directory, mapping the joined path of
each entry to its bytes. -/
def dirFS (versionPath : String) (files : List GoFile) : FS :=
  fun p => (files.find? (fun f => goJoin2 versionPath f.name == p)).map (fun f => f.bytes)

/-- One step of GetVersion's directory scan: skip directories, turn allowed
extensions into Items, parse SHA256SUMS and image.yaml, ignore the rest. -/
def scanVersionFile (digest : List Nat → String) (rootDir versionRelPath : String)
    (calcHashes : Bool) (version : Version) (file : GoFile) : Except StreamErr Version :=
  if file.isDir then .ok version
  else if HasSuffix file.name allowedItemExtensions then
    match GetItem digest rootDir (goJoin2 versionRelPath file.name) file calcHashes with
    | none => .error .indexOutOfRange
    | some item => .ok { version with Items := insertA version.Items file.name item }
  else if file.name = FileChecksumSHA256 then
    .ok { version with Checksums := some (ReadChecksumFile file.text) }
  else if file.name = FileImageConfig then
    match file.config with
    | none => .error .versionInvalidImageConfig
    | some cfg => .ok { version with ImageConfig := cfg }
  else .ok version

/-- Item types participating in combined checksums. -/
def combinedHashTypes : List String :=
  [ItemTypeSquashfs, ItemTypeDiskKVM, ItemTypeRootTarXz]

/-- One step of the combined-hash loop over the version's items: for rootfs
item types, hash the metadata file followed by the item file into one
accumulator and store the digest on the metadata item; the two mountable
rootfs types mark the version complete. -/
def applyCombinedHashStep (digest : List Nat → String) (fs : FS) (versionPath : String)
    (calcHashes : Bool) (st : Item × Bool) (e : String × Item) :
    Except StreamErr (Item × Bool) :=
  if !(combinedHashTypes.contains e.2.Ftype) then .ok st
  else
    match (if calcHashes then
        FileHash digest fs
          [goJoin2 versionPath ItemTypeMetadata, goJoin2 versionPath e.1]
      else some "") with
    | none => .error .ioError
    | some itemHash =>
      if e.2.Ftype = ItemTypeDiskKVM then
        .ok ({ st.1 with CombinedSHA256DiskKvmImg := itemHash }, false)
      else if e.2.Ftype = ItemTypeSquashfs then
        .ok ({ st.1 with CombinedSHA256SquashFs := itemHash }, false)
      else
        .ok ({ st.1 with CombinedSHA256RootXz := itemHash }, st.2)

/-- GetVersion. -/
def GetVersion (digest : List Nat → String) (rootDir versionRelPath : String)
    (files : List GoFile) (includeIncomplete calcHashes : Bool) :
    Except StreamErr Version :=
  let versionPath := goJoin2 rootDir versionRelPath
  if goHasPrefix (goBase versionPath) "." && !includeIncomplete then
    .error .versionIncomplete
  else
    match files.foldlM (scanVersionFile digest rootDir versionRelPath calcHashes)
        { incomplete := true, Checksums := none, ImageConfig := {}, Items := [] } with
    | .error e => .error e
    | .ok version =>
      match lookupA version.Items ItemTypeMetadata with
      | none =>
        if version.incomplete && !includeIncomplete then .error .versionIncomplete
        else .ok version
      | some metaItem =>
        match version.Items.foldlM
            (applyCombinedHashStep digest (dirFS versionPath files) versionPath calcHashes)
            (metaItem, version.incomplete) with
        | .error e => .error e
        | .ok res =>
          let version2 : Version := { version with
            Items := insertA version.Items ItemTypeMetadata res.1
            incomplete := res.2 }
          if version2.incomplete && !includeIncomplete then .error .versionIncomplete
          else .ok version2

/-- A version directory holding metadata, a squashfs, a qcow2 and a root
tarball with arbitrary contents. -/
def combinedSampleFiles (mb sb qb rb : List Nat) : List GoFile :=
  [{ name := "lxd.tar.xz", bytes := mb },
   { name := "rootfs.squashfs", bytes := sb },
   { name := "disk.qcow2", bytes := qb },
   { name := "root.tar.xz", bytes := rb }]

/-- C6.  FileHash streams each given file in order into a single hash
accumulator: the empty path list yields the empty string, and for present
files the result is the digest of the concatenation of their contents in
order — not a hash of hashes.  Consequently, for a version directory with a
metadata file and squashfs, qcow2 and root-tarball items, GetVersion stores
on the metadata item combined hashes equal to the digest of the metadata
bytes followed by the respective item's bytes. -/
theorem FileHash_single_accumulator (digest : List Nat → String) (fs : FS) :
    FileHash digest fs [] = some "" ∧
    (∀ (contents : String → List Nat) (paths : List String),
      (∀ p ∈ paths, fs p = some (contents p)) → paths ≠ [] →
      FileHash digest fs paths = some (digest (paths.flatMap contents))) ∧
    (∀ mb sb qb rb : List Nat,
      ∃ v, GetVersion digest "root" "images/ubuntu/noble/amd64/cloud/2024"
          (combinedSampleFiles mb sb qb rb) false true = .ok v ∧
        v.incomplete = false ∧
        (lookupA v.Items ItemTypeMetadata).map (fun i => i.CombinedSHA256SquashFs) =
          some (digest (mb ++ sb)) ∧
        (lookupA v.Items ItemTypeMetadata).map (fun i => i.CombinedSHA256DiskKvmImg) =
          some (digest (mb ++ qb)) ∧
        (lookupA v.Items ItemTypeMetadata).map (fun i => i.CombinedSHA256RootXz) =
          some (digest (mb ++ rb))) := by
  refine ⟨rfl, fun contents paths hall hne => FileHash_concat digest fs contents paths hall hne, ?_⟩
  intro mb sb qb rb
  refine ⟨_, rfl, rfl, rfl, rfl, rfl⟩

/-- A two-file filesystem for the C6 witness. -/
def sampleFS : FS :=
  fun p => if p = "a" then some [1] else if p = "b" then some [2] else none

/-- Contents of the two-file filesystem. -/
def sampleContents : String → List Nat :=
  fun p => if p = "a" then [1] else [2]

/-- Witness for the C6 theorem at a concrete filesystem and digest. -/
theorem FileHash_single_accumulator_witness :
    FileHash (fun _ => "x") sampleFS ["a", "b"] =
      some ((fun _ => "x") (["a", "b"].flatMap sampleContents)) :=
  (FileHash_single_accumulator (fun _ => "x") sampleFS).2.1 sampleContents ["a", "b"]
    (by decide) (by decide)

/-! ## GetProduct and GetProducts (stream/index.go)

GetProduct validates the shape of the product path (relative to the root,
including the stream name), reads the product directory, collects versions
(skipping incomplete ones), and applies requirements, release aliases and
the OS name from the last complete version's image config. -/

/-- Modelled from the spec: shared.ApplyFilter is not part of this tree
(only its caller in stream/index.go is).  Per the spec, a requirement entry
applies iff each of its optional releases/architectures/variants lists is
absent or matches the current product; the caller passes an empty instance
type, which is not modelled. -/
def ApplyFilter (f : SimplestreamRequirement) (release architecture variant : String) :
    Bool :=
  (f.releases.isEmpty || f.releases.contains release) &&
  (f.architectures.isEmpty || f.architectures.contains architecture) &&
  (f.variants.isEmpty || f.variants.contains variant)

/-- CreateAliases creates aliases from the given distro, release and
variant, following index.go. -/
def CreateAliases (distro release variant : String) : List String :=
  let aliases := [goJoin2 (goJoin2 distro release) variant]
  let aliases :=
    if release = "current" then aliases ++ [goJoin2 distro variant] else aliases
  if variant = "default" then
    if release = "current" then aliases ++ [distro]
    else aliases ++ [goJoin2 distro release]
  else aliases

/-- The requirements a complete version's image config applies to the
product: entries passing the filter overwrite, in order. -/
def evalRequirements (cfg : ImageConfig) (release architecture variant : String) :
    List (String × String) :=
  cfg.Requirements.foldl
    (fun acc req =>
      if ApplyFilter req release architecture variant then
        req.requirements.foldl (fun acc2 kv => insertA acc2 kv.1 kv.2) acc
      else acc)
    []

/-- The extra aliases a complete version's image config contributes: for the
map entry matching the product release, each comma-separated alias yields
its CreateAliases expansion. -/
def evalReleaseAliases (cfg : ImageConfig) (distro release variant : String) :
    List String :=
  cfg.ReleaseAliases.foldl
    (fun acc e =>
      if e.1 ≠ release then acc
      else acc ++ (goSplit e.2 ',').flatMap (fun ra => CreateAliases distro ra variant))
    []

/-- A directory entry of a product directory: either a version subdirectory
with its files, or a plain file (ignored by GetProduct). -/
inductive PEntry where
  | dir (name : String) (files : List GoFile)
  | file (f : GoFile)
deriving DecidableEq, Repr

/-- The required product path format, as written in the source. -/
def productPathFormat : String := "stream/distribution/release/architecture/variant"

/-- The required number of path components, computed from the format. -/
def productPathLength : Nat := (goSplit productPathFormat '/').length

/-- The accumulator of GetProduct's directory scan. -/
structure ProductScan where
  Versions : List (String × Version) := []
  aliases : List String := []
  osName : String := ""
  Requirements : List (String × String) := []
deriving DecidableEq, Repr

/-- One step of GetProduct's scan over the product directory entries. -/
def scanProductEntry (digest : List Nat → String) (rootDir productRelPath : String)
    (distro release architecture variant : String)
    (includeIncomplete calcHashes : Bool) (st : ProductScan) (entry : PEntry) :
    Except StreamErr ProductScan :=
  match entry with
  | .file _ => .ok st
  | .dir name files =>
    match GetVersion digest rootDir (goJoin2 productRelPath name) files
        includeIncomplete calcHashes with
    | .error .versionIncomplete => .ok st
    | .error e => .error e
    | .ok version =>
      let st :=
        if !version.incomplete then
          { st with
            aliases := evalReleaseAliases version.ImageConfig distro release variant
            osName := version.ImageConfig.DistroName
            Requirements := evalRequirements version.ImageConfig release architecture variant }
        else st
      .ok { st with Versions := insertA st.Versions name version }

/-- GetProduct.  The stat argument models os.Stat on the product path: none
when the path does not exist, otherwise its directory flag. -/
def GetProduct (digest : List Nat → String) (titleCase : String → String)
    (rootDir productRelPath : String) (stat : Option Bool) (entries : List PEntry)
    (includeIncomplete calcHashes : Bool) : Except StreamErr Product :=
  let parts := goSplit productRelPath '/'
  if parts.length < productPathLength ∨ parts.length > productPathLength then
    .error .productInvalidPath
  else
    match stat with
    | none => .error .productInvalidPath
    | some false => .error .productInvalidPath
    | some true =>
      let variant := parts.getD (parts.length - 1) ""
      let architecture := parts.getD (parts.length - 2) ""
      let release := parts.getD (parts.length - 3) ""
      let distro := parts.getD (parts.length - 4) ""
      match entries.foldlM
          (scanProductEntry digest rootDir productRelPath distro release architecture
            variant includeIncomplete calcHashes) {} with
      | .error e => .error e
      | .ok st =>
        let aliases := CreateAliases distro release variant ++ st.aliases
        .ok { Variant := variant
              Architecture := architecture
              Release := release
              Distro := distro
              Versions := st.Versions
              Requirements := st.Requirements
              Aliases := String.intercalate "," aliases
              OS := if st.osName ≠ "" then st.osName else titleCase distro }

/-- A walked candidate product path: its path relative to the root, the
stat result for it, and its directory entries. -/
structure WalkEntry where
  relPath : String
  stat : Option Bool := some true
  entries : List PEntry := []
deriving DecidableEq, Repr

/-- One walked path handled by GetProducts: the product is read, an invalid
product path is skipped, a product with no versions is skipped, and the rest
are stored in the map by product ID. -/
def getProductsStep (digest : List Nat → String) (titleCase : String → String)
    (rootDir : String) (includeIncomplete calcHashes : Bool)
    (products : List (String × Product)) (w : WalkEntry) :
    Except StreamErr (List (String × Product)) :=
  match GetProduct digest titleCase rootDir w.relPath w.stat w.entries
      includeIncomplete calcHashes with
  | .error .productInvalidPath => .ok products
  | .error e => .error e
  | .ok product =>
    if (keysA product.Versions).length = 0 then .ok products
    else .ok (insertA products product.ID product)

/-- GetProducts walks the stream subtree and folds getProductsStep over the
candidate product paths, starting from the empty map. -/
def GetProducts (digest : List Nat → String) (titleCase : String → String)
    (rootDir : String) (walk : List WalkEntry)
    (includeIncomplete calcHashes : Bool) :
    Except StreamErr (List (String × Product)) :=
  walk.foldlM (getProductsStep digest titleCase rootDir includeIncomplete calcHashes) []

/-! ## Error analysis: which errors each scanner layer can produce -/

theorem foldlM_except_ne_error {ε α β : Type} (f : β → α → Except ε β) (bad : ε)
    (hf : ∀ b a, f b a ≠ .error bad) :
    ∀ (l : List α) (init : β), l.foldlM f init ≠ .error bad := by
  intro l
  induction l with
  | nil =>
    intro init hcontra
    exact Except.noConfusion hcontra
  | cons x rest ih =>
    intro init
    rw [List.foldlM_cons]
    cases h : f init x with
    | error e =>
      intro hcontra
      have hbind : (Except.error e : Except ε β) >>= (fun b => rest.foldlM f b) =
          Except.error e := rfl
      rw [hbind] at hcontra
      have he : e = bad := by injection hcontra
      exact hf init x (by rw [h, he])
    | ok b =>
      have hbind : (Except.ok b : Except ε β) >>= (fun b2 => rest.foldlM f b2) =
          rest.foldlM f b := rfl
      rw [hbind]
      exact ih b

theorem scanVersionFile_ne_invalidPath (digest : List Nat → String)
    (rootDir versionRelPath : String) (calcHashes : Bool) (version : Version)
    (file : GoFile) :
    scanVersionFile digest rootDir versionRelPath calcHashes version file ≠
      .error .productInvalidPath := by
  rw [scanVersionFile]
  split
  · simp
  · split
    · split <;> simp
    · split
      · simp
      · split
        · split <;> simp
        · simp

theorem applyCombinedHashStep_ne_invalidPath (digest : List Nat → String) (fs : FS)
    (versionPath : String) (calcHashes : Bool) (st : Item × Bool) (e : String × Item) :
    applyCombinedHashStep digest fs versionPath calcHashes st e ≠
      .error .productInvalidPath := by
  rw [applyCombinedHashStep]
  split
  · simp
  · split
    · simp
    · split
      · simp
      · split <;> simp

theorem GetVersion_ne_invalidPath (digest : List Nat → String)
    (rootDir versionRelPath : String) (files : List GoFile)
    (includeIncomplete calcHashes : Bool) :
    GetVersion digest rootDir versionRelPath files includeIncomplete calcHashes ≠
      .error .productInvalidPath := by
  rw [GetVersion]
  split
  · simp
  · cases hscan : List.foldlM (scanVersionFile digest rootDir versionRelPath calcHashes)
        { incomplete := true, Checksums := none, ImageConfig := {}, Items := [] }
        files with
    | error e =>
      intro hcontra
      have he : e = StreamErr.productInvalidPath := by injection hcontra
      rw [he] at hscan
      exact foldlM_except_ne_error _ _
        (fun v f => scanVersionFile_ne_invalidPath digest rootDir versionRelPath
          calcHashes v f) files _ hscan
    | ok version =>
      cases hmeta : lookupA version.Items ItemTypeMetadata with
      | none =>
        simp only [hmeta]
        by_cases hc : (version.incomplete && !includeIncomplete) = true
        · simp [hc]
        · simp [hc]
      | some metaItem =>
        simp only [hmeta]
        cases hcomb : version.Items.foldlM
            (applyCombinedHashStep digest
              (dirFS (goJoin2 rootDir versionRelPath) files)
              (goJoin2 rootDir versionRelPath) calcHashes)
            (metaItem, version.incomplete) with
        | error e =>
          simp only [hcomb]
          intro hcontra
          have he : e = StreamErr.productInvalidPath := by injection hcontra
          rw [he] at hcomb
          exact foldlM_except_ne_error _ _
            (fun st e2 => applyCombinedHashStep_ne_invalidPath digest _ _
              calcHashes st e2) _ _ hcomb
        | ok res =>
          simp only [hcomb]
          by_cases hc : (res.2 && !includeIncomplete) = true
          · simp [hc]
          · simp [hc]

theorem scanProductEntry_ne_invalidPath (digest : List Nat → String)
    (rootDir productRelPath distro release architecture variant : String)
    (includeIncomplete calcHashes : Bool) (st : ProductScan) (entry : PEntry) :
    scanProductEntry digest rootDir productRelPath distro release architecture variant
        includeIncomplete calcHashes st entry ≠ .error .productInvalidPath := by
  cases entry with
  | file f => intro h; exact Except.noConfusion h
  | dir name files =>
    cases hv : GetVersion digest rootDir (goJoin2 productRelPath name) files
        includeIncomplete calcHashes with
    | error e =>
      cases e with
      | versionIncomplete => simp [scanProductEntry, hv]
      | productInvalidPath =>
        exact absurd hv (GetVersion_ne_invalidPath digest rootDir _ files
          includeIncomplete calcHashes)
      | versionInvalidImageConfig => simp [scanProductEntry, hv]
      | indexOutOfRange => simp [scanProductEntry, hv]
      | ioError => simp [scanProductEntry, hv]
    | ok version => simp [scanProductEntry, hv]

/-- C9 (counterexample).  The claim requires GetProduct to accept a
four-component relative path naming an existing directory, but GetProduct
validates the path against the five-component format
"stream/distribution/release/architecture/variant" (the path is relative to
the repository root and includes the stream name), so an existing directory
at a four-component path is rejected with ErrProductInvalidPath. -/
theorem GetProduct_four_components_counterexample :
    (goSplit "ubuntu/noble/amd64/cloud" '/').length = 4 ∧
    GetProduct (fun _ => "") (fun s => s) "root" "ubuntu/noble/amd64/cloud"
      (some true) [] false false = .error .productInvalidPath :=
  ⟨rfl, rfl⟩

/-- C9 (amended).  GetProduct fails with ErrProductInvalidPath exactly when
the given relative path does not consist of exactly five path components
(stream/distribution/release/architecture/variant), or the path does not
exist, or it is not a directory; for a relative path with exactly five
components naming an existing directory it never returns
ErrProductInvalidPath (though it may fail with a different error). -/
theorem GetProduct_invalid_path_iff (digest : List Nat → String)
    (titleCase : String → String) (rootDir productRelPath : String)
    (stat : Option Bool) (entries : List PEntry) (includeIncomplete calcHashes : Bool) :
    GetProduct digest titleCase rootDir productRelPath stat entries includeIncomplete
        calcHashes = .error .productInvalidPath ↔
      ((goSplit productRelPath '/').length ≠ productPathLength ∨ stat ≠ some true) := by
  by_cases hlen : (goSplit productRelPath '/').length = productPathLength
  · have hcond : ¬((goSplit productRelPath '/').length < productPathLength ∨
        (goSplit productRelPath '/').length > productPathLength) := by omega
    rw [GetProduct.eq_def]
    simp only [hcond, if_false]
    cases stat with
    | none => simp
    | some b =>
      cases b
      · simp
      · constructor
        · intro hcontra
          exfalso
          revert hcontra
          cases hfold : entries.foldlM
              (scanProductEntry digest rootDir productRelPath
                ((goSplit productRelPath '/').getD ((goSplit productRelPath '/').length - 4) "")
                ((goSplit productRelPath '/').getD ((goSplit productRelPath '/').length - 3) "")
                ((goSplit productRelPath '/').getD ((goSplit productRelPath '/').length - 2) "")
                ((goSplit productRelPath '/').getD ((goSplit productRelPath '/').length - 1) "")
                includeIncomplete calcHashes) {} with
          | error e =>
            simp only [hfold]
            intro hcontra
            have he : e = StreamErr.productInvalidPath := by injection hcontra
            rw [he] at hfold
            exact foldlM_except_ne_error _ _
              (fun st e2 => scanProductEntry_ne_invalidPath digest rootDir
                productRelPath _ _ _ _ includeIncomplete calcHashes st e2)
              entries _ hfold
          | ok st =>
            simp only [hfold]
            intro hcontra
            exact Except.noConfusion hcontra
        · intro h
          rcases h with h | h
          · exact absurd hlen h
          · exact absurd rfl h
  · have hcond : (goSplit productRelPath '/').length < productPathLength ∨
        (goSplit productRelPath '/').length > productPathLength := by omega
    rw [GetProduct.eq_def]
    simp only [hcond, if_true]
    constructor
    · intro _
      exact Or.inl hlen
    · intro _
      trivial

/-- Witness for the amended C9 theorem: a four-component existing directory
is rejected, by the iff at a concrete input. -/
theorem GetProduct_invalid_path_iff_witness :
    GetProduct (fun _ => "") (fun s => s) "root" "alpine/edge/amd64/default"
      (some true) [] false false = .error .productInvalidPath :=
  (GetProduct_invalid_path_iff (fun _ => "") (fun s => s) "root"
    "alpine/edge/amd64/default" (some true) [] false false).mpr (Or.inl (by decide))

/-! ## Hidden versions (C8) -/

/-- A directory entry name contains no path separator, as operating systems
guarantee for the names returned by a directory read. -/
def entryNameSlashFree : PEntry → Prop
  | .dir n _ => ∀ x ∈ n.data, x ≠ '/'
  | .file _ => True

instance : DecidablePred entryNameSlashFree := fun e =>
  match e with
  | .dir n _ => inferInstanceAs (Decidable (∀ x ∈ n.data, x ≠ '/'))
  | .file _ => inferInstanceAs (Decidable True)

theorem GetVersion_hidden_error (digest : List Nat → String)
    (rootDir versionRelPath : String) (files : List GoFile) (calcHashes : Bool)
    (hhid : goHasPrefix (goBase (goJoin2 rootDir versionRelPath)) "." = true) :
    GetVersion digest rootDir versionRelPath files false calcHashes =
      .error .versionIncomplete := by
  rw [GetVersion]
  simp [hhid]

theorem scanVersionFile_ne_versionIncomplete (digest : List Nat → String)
    (rootDir versionRelPath : String) (calcHashes : Bool) (version : Version)
    (file : GoFile) :
    scanVersionFile digest rootDir versionRelPath calcHashes version file ≠
      .error .versionIncomplete := by
  rw [scanVersionFile]
  split
  · simp
  · split
    · split <;> simp
    · split
      · simp
      · split
        · split <;> simp
        · simp

theorem applyCombinedHashStep_ne_versionIncomplete (digest : List Nat → String)
    (fs : FS) (versionPath : String) (calcHashes : Bool) (st : Item × Bool)
    (e : String × Item) :
    applyCombinedHashStep digest fs versionPath calcHashes st e ≠
      .error .versionIncomplete := by
  rw [applyCombinedHashStep]
  split
  · simp
  · split
    · simp
    · split
      · simp
      · split <;> simp

theorem GetVersion_incl_ne_versionIncomplete (digest : List Nat → String)
    (rootDir versionRelPath : String) (files : List GoFile) (calcHashes : Bool) :
    GetVersion digest rootDir versionRelPath files true calcHashes ≠
      .error .versionIncomplete := by
  rw [GetVersion]
  split
  · rename_i hcond
    simp at hcond
  · cases hscan : List.foldlM (scanVersionFile digest rootDir versionRelPath calcHashes)
        { incomplete := true, Checksums := none, ImageConfig := {}, Items := [] }
        files with
    | error e =>
      intro hcontra
      have he : e = StreamErr.versionIncomplete := by injection hcontra
      rw [he] at hscan
      exact foldlM_except_ne_error _ _
        (fun v f => scanVersionFile_ne_versionIncomplete digest rootDir versionRelPath
          calcHashes v f) files _ hscan
    | ok version =>
      cases hmeta : lookupA version.Items ItemTypeMetadata with
      | none => simp [hmeta]
      | some metaItem =>
        simp only [hmeta]
        cases hcomb : version.Items.foldlM
            (applyCombinedHashStep digest
              (dirFS (goJoin2 rootDir versionRelPath) files)
              (goJoin2 rootDir versionRelPath) calcHashes)
            (metaItem, version.incomplete) with
        | error e =>
          simp only [hcomb]
          intro hcontra
          have he : e = StreamErr.versionIncomplete := by injection hcontra
          rw [he] at hcomb
          exact foldlM_except_ne_error _ _
            (fun st e2 => applyCombinedHashStep_ne_versionIncomplete digest _ _
              calcHashes st e2) _ _ hcomb
        | ok res =>
          simp [hcomb]

theorem GetVersion_ok_not_hidden (digest : List Nat → String)
    (rootDir versionRelPath : String) (files : List GoFile) (calcHashes : Bool)
    (v : Version)
    (hok : GetVersion digest rootDir versionRelPath files false calcHashes = .ok v) :
    goHasPrefix (goBase (goJoin2 rootDir versionRelPath)) "." = false := by
  cases hb : goHasPrefix (goBase (goJoin2 rootDir versionRelPath)) "."
  · rfl
  · rw [GetVersion_hidden_error digest rootDir versionRelPath files calcHashes hb] at hok
    exact Except.noConfusion hok

theorem mem_keysA_insertA {V : Type} {m : List (String × V)} {k n : String} {v : V}
    (h : n ∈ keysA (insertA m k v)) : n = k ∨ n ∈ keysA m := by
  induction m with
  | nil => simpa [insertA, keysA] using h
  | cons e rest ih =>
    by_cases he : e.1 = k
    · simp only [insertA, he, if_pos, keysA, List.map_cons, List.mem_cons] at h ⊢
      rcases h with h | h
      · exact Or.inl h
      · exact Or.inr (Or.inr h)
    · simp only [insertA, he, if_false, keysA, List.map_cons, List.mem_cons] at h ⊢
      rcases h with h | h
      · exact Or.inr (Or.inl h)
      · rcases ih h with h2 | h2
        · exact Or.inl h2
        · exact Or.inr (Or.inr h2)

theorem scanProductEntry_versions (digest : List Nat → String)
    (rootDir productRelPath distro release architecture variant : String)
    (includeIncomplete calcHashes : Bool) (st st' : ProductScan) (entry : PEntry)
    (hok : scanProductEntry digest rootDir productRelPath distro release architecture
      variant includeIncomplete calcHashes st entry = .ok st') :
    st'.Versions = st.Versions ∨
    ∃ name files version,
      entry = PEntry.dir name files ∧
      GetVersion digest rootDir (goJoin2 productRelPath name) files includeIncomplete
        calcHashes = .ok version ∧
      st'.Versions = insertA st.Versions name version := by
  cases entry with
  | file f =>
    left
    have : st' = st := by
      have h2 : Except.ok (ε := StreamErr) st = Except.ok st' := hok
      injection h2 with h3
      exact h3.symm
    rw [this]
  | dir name files =>
    cases hv : GetVersion digest rootDir (goJoin2 productRelPath name) files
        includeIncomplete calcHashes with
    | error e =>
      cases e <;> simp [scanProductEntry, hv] at hok <;>
        first
        | (left; rw [← hok])
        | exact hok.elim
    | ok version =>
      right
      refine ⟨name, files, version, rfl, hv, ?_⟩
      simp only [scanProductEntry, hv] at hok
      injection hok with h3
      rw [← h3]
      cases hinc : version.incomplete <;> simp [hinc]

theorem scanProduct_fold_not_hidden (digest : List Nat → String)
    (rootDir productRelPath distro release architecture variant : String)
    (calcHashes : Bool) (entries : List PEntry) :
    ∀ (st st' : ProductScan),
      (∀ n ∈ keysA st.Versions, goHasPrefix n "." = false) →
      entries.foldlM (scanProductEntry digest rootDir productRelPath distro release
        architecture variant false calcHashes) st = .ok st' →
      (∀ e ∈ entries, entryNameSlashFree e) →
      ∀ n ∈ keysA st'.Versions, goHasPrefix n "." = false := by
  induction entries with
  | nil =>
    intro st st' hst hfold _
    have h2 : Except.ok (ε := StreamErr) st = Except.ok st' := hfold
    injection h2 with h3
    rw [← h3]
    exact hst
  | cons entry rest ih =>
    intro st st' hst hfold hnames
    rw [List.foldlM_cons] at hfold
    cases hstep : scanProductEntry digest rootDir productRelPath distro release
        architecture variant false calcHashes st entry with
    | error e =>
      rw [hstep] at hfold
      exact Except.noConfusion hfold
    | ok st1 =>
      rw [hstep] at hfold
      have hfold2 : rest.foldlM (scanProductEntry digest rootDir productRelPath distro
          release architecture variant false calcHashes) st1 = .ok st' := hfold
      have hst1 : ∀ n ∈ keysA st1.Versions, goHasPrefix n "." = false := by
        rcases scanProductEntry_versions digest rootDir productRelPath distro release
            architecture variant false calcHashes st st1 entry hstep with
          heq | ⟨name, files, version, hentry, hv, heq⟩
        · rw [heq]
          exact hst
        · rw [heq]
          intro n hn
          rcases mem_keysA_insertA hn with rfl | hn2
          · have hslash : ∀ x ∈ n.data, x ≠ '/' := by
              have := hnames entry (List.mem_cons_self _ _)
              rw [hentry] at this
              exact this
            have hnh := GetVersion_ok_not_hidden digest rootDir
              (goJoin2 productRelPath n) files calcHashes version hv
            have hbase : goBase (goJoin2 rootDir (goJoin2 productRelPath n)) = n := by
              refine goBase_eq_of_suffix _ n hslash
                ⟨rootDir.data ++ '/' :: productRelPath.data, ?_⟩
              rw [data_goJoin2, data_goJoin2]
              simp
            rw [hbase] at hnh
            exact hnh
          · exact hst n hn2
      exact ih st1 st' hst1 hfold2
        (fun e he => hnames e (List.mem_cons_of_mem _ he))

theorem GetProduct_versions_not_hidden (digest : List Nat → String)
    (titleCase : String → String) (rootDir productRelPath : String)
    (stat : Option Bool) (entries : List PEntry) (calcHashes : Bool)
    (product : Product)
    (hok : GetProduct digest titleCase rootDir productRelPath stat entries false
      calcHashes = .ok product)
    (hnames : ∀ e ∈ entries, entryNameSlashFree e) :
    ∀ n ∈ keysA product.Versions, goHasPrefix n "." = false := by
  by_cases hlen : (goSplit productRelPath '/').length < productPathLength ∨
      (goSplit productRelPath '/').length > productPathLength
  · rw [GetProduct.eq_def] at hok
    simp only [hlen, if_true] at hok
    exact Except.noConfusion hok
  · rw [GetProduct.eq_def] at hok
    simp only [hlen, if_false] at hok
    cases stat with
    | none => exact Except.noConfusion hok
    | some b =>
      cases b with
      | false => exact Except.noConfusion hok
      | true =>
        cases hfold : entries.foldlM
            (scanProductEntry digest rootDir productRelPath
              ((goSplit productRelPath '/').getD ((goSplit productRelPath '/').length - 4) "")
              ((goSplit productRelPath '/').getD ((goSplit productRelPath '/').length - 3) "")
              ((goSplit productRelPath '/').getD ((goSplit productRelPath '/').length - 2) "")
              ((goSplit productRelPath '/').getD ((goSplit productRelPath '/').length - 1) "")
              false calcHashes) {} with
        | error e =>
          simp only [hfold] at hok
          exact Except.noConfusion hok
        | ok st =>
          simp only [hfold] at hok
          injection hok with h3
          have hV : product.Versions = st.Versions := by rw [← h3]
          rw [hV]
          exact scanProduct_fold_not_hidden digest rootDir productRelPath _ _ _ _
            calcHashes entries {} st (by intro n hn; simp [keysA] at hn) hfold hnames

theorem keysA_insertA_nodup {V : Type} (m : List (String × V)) (k : String) (v : V)
    (h : (keysA m).Nodup) : (keysA (insertA m k v)).Nodup := by
  induction m with
  | nil => simp [insertA, keysA]
  | cons e rest ih =>
    simp only [keysA, List.map_cons, List.nodup_cons] at h
    by_cases he : e.1 = k
    · simp only [insertA, he, if_pos, keysA, List.map_cons, List.nodup_cons]
      refine ⟨?_, h.2⟩
      rw [← he]
      exact h.1
    · rcases e with ⟨k1, v1⟩
      simp only at he
      simp only [insertA, he, if_false, keysA, List.map_cons, List.nodup_cons]
      refine ⟨fun hmem => ?_, ih h.2⟩
      rcases mem_keysA_insertA hmem with h2 | h2
      · exact he h2
      · exact h.1 h2

theorem lookupA_insertA_cases {V : Type} {m : List (String × V)} {k id : String}
    {v pr : V} (h : lookupA (insertA m k v) id = some pr) :
    pr = v ∨ lookupA m id = some pr := by
  by_cases he : k = id
  · subst he
    rw [lookupA_insert_self] at h
    left
    injection h with h2
    exact h2.symm
  · rw [lookupA_insert_ne m k id v he] at h
    exact Or.inr h

theorem getProductsStep_cases (digest : List Nat → String)
    (titleCase : String → String) (rootDir : String)
    (includeIncomplete calcHashes : Bool) (products : List (String × Product))
    (w : WalkEntry) (out : List (String × Product))
    (hok : getProductsStep digest titleCase rootDir includeIncomplete calcHashes
      products w = .ok out) :
    out = products ∨
    ∃ product,
      GetProduct digest titleCase rootDir w.relPath w.stat w.entries
        includeIncomplete calcHashes = .ok product ∧
      out = insertA products product.ID product := by
  rw [getProductsStep] at hok
  cases hgp : GetProduct digest titleCase rootDir w.relPath w.stat w.entries
      includeIncomplete calcHashes with
  | error e =>
    rw [hgp] at hok
    cases e with
    | productInvalidPath =>
      left
      injection hok with h3
      exact h3.symm
    | versionIncomplete => exact Except.noConfusion hok
    | versionInvalidImageConfig => exact Except.noConfusion hok
    | indexOutOfRange => exact Except.noConfusion hok
    | ioError => exact Except.noConfusion hok
  | ok product =>
    rw [hgp] at hok
    by_cases hz : (keysA product.Versions).length = 0
    · simp only [hz, if_pos] at hok
      left
      injection hok with h3
      exact h3.symm
    · simp only [hz, if_false] at hok
      right
      refine ⟨product, rfl, ?_⟩
      injection hok with h3
      exact h3.symm

theorem GetProducts_fold_not_hidden (digest : List Nat → String)
    (titleCase : String → String) (rootDir : String) (calcHashes : Bool) :
    ∀ (walk : List WalkEntry) (acc scanned : List (String × Product)),
      walk.foldlM (getProductsStep digest titleCase rootDir false calcHashes) acc =
        .ok scanned →
      (∀ w ∈ walk, ∀ e ∈ w.entries, entryNameSlashFree e) →
      (∀ id p, lookupA acc id = some p → ∀ n ∈ keysA p.Versions,
        goHasPrefix n "." = false) →
      ∀ id p, lookupA scanned id = some p → ∀ n ∈ keysA p.Versions,
        goHasPrefix n "." = false := by
  intro walk
  induction walk with
  | nil =>
    intro acc scanned hfold _ hacc
    have h2 : Except.ok (ε := StreamErr) acc = Except.ok scanned := hfold
    injection h2 with h3
    rw [← h3]
    exact hacc
  | cons w rest ih =>
    intro acc scanned hfold hnames hacc
    rw [List.foldlM_cons] at hfold
    cases hstep : getProductsStep digest titleCase rootDir false calcHashes acc w with
    | error e =>
      rw [hstep] at hfold
      exact Except.noConfusion hfold
    | ok acc1 =>
      rw [hstep] at hfold
      have hfold2 : rest.foldlM (getProductsStep digest titleCase rootDir false
          calcHashes) acc1 = .ok scanned := hfold
      have hacc1 : ∀ id p, lookupA acc1 id = some p → ∀ n ∈ keysA p.Versions,
          goHasPrefix n "." = false := by
        rcases getProductsStep_cases digest titleCase rootDir false calcHashes acc w
            acc1 hstep with heq | ⟨product, hgp, heq⟩
        · rw [heq]
          exact hacc
        · rw [heq]
          intro id p hlk
          rcases lookupA_insertA_cases hlk with rfl | hlk2
          · exact GetProduct_versions_not_hidden digest titleCase rootDir w.relPath
              w.stat w.entries calcHashes p hgp (hnames w (List.mem_cons_self _ _))
          · exact hacc id p hlk2
      exact ih acc1 scanned hfold2
        (fun w2 hw2 => hnames w2 (List.mem_cons_of_mem _ hw2)) hacc1

theorem GetProducts_fold_nodup (digest : List Nat → String)
    (titleCase : String → String) (rootDir : String)
    (includeIncomplete calcHashes : Bool) :
    ∀ (walk : List WalkEntry) (acc scanned : List (String × Product)),
      walk.foldlM (getProductsStep digest titleCase rootDir includeIncomplete
        calcHashes) acc = .ok scanned →
      (keysA acc).Nodup → (keysA scanned).Nodup := by
  intro walk
  induction walk with
  | nil =>
    intro acc scanned hfold hacc
    have h2 : Except.ok (ε := StreamErr) acc = Except.ok scanned := hfold
    injection h2 with h3
    rw [← h3]
    exact hacc
  | cons w rest ih =>
    intro acc scanned hfold hacc
    rw [List.foldlM_cons] at hfold
    cases hstep : getProductsStep digest titleCase rootDir includeIncomplete
        calcHashes acc w with
    | error e =>
      rw [hstep] at hfold
      exact Except.noConfusion hfold
    | ok acc1 =>
      rw [hstep] at hfold
      have hfold2 : rest.foldlM (getProductsStep digest titleCase rootDir
          includeIncomplete calcHashes) acc1 = .ok scanned := hfold
      have hacc1 : (keysA acc1).Nodup := by
        rcases getProductsStep_cases digest titleCase rootDir includeIncomplete
            calcHashes acc w acc1 hstep with heq | ⟨product, _, heq⟩
        · rw [heq]
          exact hacc
        · rw [heq]
          exact keysA_insertA_nodup acc product.ID product hacc
      exact ih acc1 scanned hfold2 hacc1

theorem lookupA_findMissing_versions_subset (old new : List (String × Product))
    (hnodup : (keysA new).Nodup) (id : String) (p : Product)
    (h : lookupA (findMissing old new) id = some p) :
    ∃ pn, lookupA new id = some pn ∧
      ∀ n ∈ keysA p.Versions, n ∈ keysA pn.Versions := by
  rw [lookupA_findMissing old new hnodup id] at h
  cases hnew : lookupA new id with
  | none =>
    simp only [hnew] at h
    exact Option.noConfusion h
  | some pn =>
    simp only [hnew] at h
    cases hold : lookupA old id with
    | none =>
      simp only [hold] at h
      injection h with h2
      refine ⟨pn, rfl, ?_⟩
      rw [← h2]
      intro n hn
      exact hn
    | some po =>
      simp only [hold] at h
      by_cases hlen : (pn.Versions.filter fun e =>
          (lookupA po.Versions e.1).isNone).length > 0
      · simp only [hlen, if_pos] at h
        injection h with h2
        refine ⟨pn, rfl, ?_⟩
        rw [← h2]
        intro n hn
        simp only [keysA, List.mem_map] at hn ⊢
        obtain ⟨e, he, rfl⟩ := hn
        exact ⟨e, (List.mem_filter.mp he).1, rfl⟩
      · simp only [hlen, if_false] at h
        exact Option.noConfusion h

/-- C8.  A version directory whose base name begins with "." is hidden:
GetVersion fails with versionIncomplete for it unless incomplete versions are
explicitly requested (and with that option it never fails with
versionIncomplete); consequently no version name beginning with "." appears
in any product returned by GetProduct or GetProducts without the option, and
no such version enters the catalog through the products the diff reports as
added. -/
theorem hidden_version_never_enters_catalog :
    (∀ (digest : List Nat → String) (rootDir versionRelPath : String)
        (files : List GoFile) (calcHashes : Bool),
        goHasPrefix (goBase (goJoin2 rootDir versionRelPath)) "." = true →
        GetVersion digest rootDir versionRelPath files false calcHashes =
          .error .versionIncomplete) ∧
    (∀ (digest : List Nat → String) (rootDir versionRelPath : String)
        (files : List GoFile) (calcHashes : Bool),
        GetVersion digest rootDir versionRelPath files true calcHashes ≠
          .error .versionIncomplete) ∧
    (∀ (digest : List Nat → String) (titleCase : String → String)
        (rootDir productRelPath : String) (stat : Option Bool)
        (entries : List PEntry) (calcHashes : Bool) (product : Product),
        GetProduct digest titleCase rootDir productRelPath stat entries false
          calcHashes = .ok product →
        (∀ e ∈ entries, entryNameSlashFree e) →
        ∀ n ∈ keysA product.Versions, goHasPrefix n "." = false) ∧
    (∀ (digest : List Nat → String) (titleCase : String → String)
        (rootDir : String) (walk : List WalkEntry)
        (oldProducts scanned : List (String × Product)) (calcHashes : Bool),
        GetProducts digest titleCase rootDir walk false calcHashes = .ok scanned →
        (∀ w ∈ walk, ∀ e ∈ w.entries, entryNameSlashFree e) →
        ∀ id p, lookupA (diffProducts oldProducts scanned).2 id = some p →
        ∀ n ∈ keysA p.Versions, goHasPrefix n "." = false) := by
  refine ⟨?_, ?_, ?_, ?_⟩
  · intro digest rootDir versionRelPath files calcHashes hhid
    exact GetVersion_hidden_error digest rootDir versionRelPath files calcHashes hhid
  · intro digest rootDir versionRelPath files calcHashes
    exact GetVersion_incl_ne_versionIncomplete digest rootDir versionRelPath files
      calcHashes
  · intro digest titleCase rootDir productRelPath stat entries calcHashes product
      hok hnames
    exact GetProduct_versions_not_hidden digest titleCase rootDir productRelPath
      stat entries calcHashes product hok hnames
  · intro digest titleCase rootDir walk oldProducts scanned calcHashes hscan hnames
      id p hlk
    have hscan2 : walk.foldlM (getProductsStep digest titleCase rootDir false
        calcHashes) [] = .ok scanned := hscan
    have hnodup : (keysA scanned).Nodup :=
      GetProducts_fold_nodup digest titleCase rootDir false calcHashes walk []
        scanned hscan2 (by simp [keysA])
    have hdiff : (diffProducts oldProducts scanned).2 =
        findMissing oldProducts scanned := rfl
    rw [hdiff] at hlk
    obtain ⟨pn, hpn, hsub⟩ :=
      lookupA_findMissing_versions_subset oldProducts scanned hnodup id p hlk
    intro n hn
    refine GetProducts_fold_not_hidden digest titleCase rootDir calcHashes walk []
      scanned hscan2 hnames ?_ id pn hpn n (hsub n hn)
    intro id2 p2 hcontra
    simp [lookupA] at hcontra

/-- A complete version directory: metadata plus a squashfs rootfs. -/
def c8files : List GoFile :=
  [{ name := "lxd.tar.xz", bytes := [0] }, { name := "rootfs.squashfs", bytes := [1] }]

/-- A product directory holding one complete version and one hidden one. -/
def c8entries : List PEntry :=
  [PEntry.dir "2024_01_01" c8files, PEntry.dir ".building" []]

def c8walk : List WalkEntry :=
  [{ relPath := "images/d/r/a/v", stat := some true, entries := c8entries }]

def c8version : Version :=
  { incomplete := false
    Checksums := none
    ImageConfig := {}
    Items :=
      [("lxd.tar.xz",
        { Ftype := "lxd.tar.xz", Path := "images/d/r/a/v/2024_01_01/lxd.tar.xz" }),
       ("rootfs.squashfs",
        { Ftype := "squashfs", Path := "images/d/r/a/v/2024_01_01/rootfs.squashfs" })] }

def c8product : Product :=
  { Aliases := "d/r/v"
    Architecture := "a"
    Distro := "d"
    OS := "d"
    Release := "r"
    Variant := "v"
    Versions := [("2024_01_01", c8version)] }

def c8scanned : List (String × Product) := [("d:r:a:v", c8product)]

theorem hidden_version_never_enters_catalog_witness :
    GetVersion (fun _ => "") "root" "images/d/r/a/v/.building" [] false false =
        .error .versionIncomplete ∧
    GetVersion (fun _ => "") "root" "images/d/r/a/v/.building" [] true false ≠
        .error .versionIncomplete ∧
    (∀ n ∈ keysA c8product.Versions, goHasPrefix n "." = false) ∧
    (∀ id p, lookupA (diffProducts [] c8scanned).2 id = some p →
      ∀ n ∈ keysA p.Versions, goHasPrefix n "." = false) := by
  refine ⟨?_, ?_, ?_, ?_⟩
  · exact hidden_version_never_enters_catalog.1 (fun _ => "") "root"
      "images/d/r/a/v/.building" [] false (by decide)
  · exact hidden_version_never_enters_catalog.2.1 (fun _ => "") "root"
      "images/d/r/a/v/.building" [] false
  · exact hidden_version_never_enters_catalog.2.2.1 (fun _ => "") (fun s => s)
      "root" "images/d/r/a/v" (some true) c8entries false c8product rfl (by decide)
  · exact hidden_version_never_enters_catalog.2.2.2 (fun _ => "") (fun s => s)
      "root" c8walk [] c8scanned false rfl (by decide)

/-! ## Dangling prune (C5) -/

/-- Six hours (6*time.Hour), in seconds. -/
def sixHours : Nat := 21600

/-- removeIfOlder: stat the path (ageOf gives the age of the file at a path,
none when os.Stat fails) and remove it when its modification time is older
than maxAge; removed paths are collected. -/
def removeIfOlder (ageOf : String → Option Nat) (path : String) (maxAge : Nat) :
    Except StreamErr (List String) :=
  match ageOf path with
  | none => .error .ioError
  | some age => if age > maxAge then .ok [path] else .ok []

/-- One dangling-version check inside a catalog-known product: a version
referenced by the catalog is left alone, an unreferenced one is removed if
older than six hours. -/
def pruneDanglingVersionStep (ageOf : String → Option Nat) (cp : Product)
    (productPath : String) (acc : List String) (rpv : String) :
    Except StreamErr (List String) :=
  match lookupA cp.Versions rpv with
  | some _ => .ok acc
  | none => do
    let r ← removeIfOlder ageOf (goJoin2 productPath rpv) sixHours
    pure (acc ++ r)

/-- One scanned product handled by the dangling prune: a product missing
from the catalog is removed whole if old enough, otherwise its versions are
checked one by one. -/
def pruneDanglingProduct (ageOf : String → Option Nat) (catalog : ProductCatalog)
    (rootDir streamName : String) (acc : List String) (e : String × Product) :
    Except StreamErr (List String) :=
  let productPath := goJoin2 (goJoin2 rootDir streamName) e.2.RelPath
  match lookupA catalog.Products e.1 with
  | none => do
    let r ← removeIfOlder ageOf productPath sixHours
    pure (acc ++ r)
  | some cp =>
    (keysA e.2.Versions).foldlM (pruneDanglingVersionStep ageOf cp productPath) acc

/-- Modelled from the spec: pruneDanglingProductVersions scans the stream
directory including incomplete versions (the disk scan is GetProducts with
the WithIncompleteVersions(true) option), reads the catalog, skips all
removal when the catalog has no products, and otherwise removes every
version directory (or whole unreferenced product directory) that is absent
from the catalog and older than six hours.  The copy of cmd_prune.go in the
tree predates the stream options API and passes a plain boolean to the old
GetProducts signature; the regression tests drive the same prune through
the options API and require incomplete versions to be scanned and removed. -/
def pruneDanglingProductVersions (digest : List Nat → String)
    (titleCase : String → String) (rootDir streamName : String)
    (walk : List WalkEntry) (calcHashes : Bool) (ageOf : String → Option Nat)
    (catalog : ProductCatalog) : Except StreamErr (List String) := do
  let products ← GetProducts digest titleCase rootDir walk true calcHashes
  if (keysA catalog.Products).length = 0 then
    pure []
  else
    products.foldlM (pruneDanglingProduct ageOf catalog rootDir streamName) []

theorem foldlM_acc_mono {α : Type}
    (f : List String → α → Except StreamErr (List String))
    (hmono : ∀ acc a out, f acc a = .ok out → ∀ x ∈ acc, x ∈ out) :
    ∀ (l : List α) (acc out : List String), l.foldlM f acc = .ok out →
      ∀ x ∈ acc, x ∈ out := by
  intro l
  induction l with
  | nil =>
    intro acc out hfold
    have h2 : Except.ok (ε := StreamErr) acc = Except.ok out := hfold
    injection h2 with h3
    rw [← h3]
    exact fun x hx => hx
  | cons b rest ih =>
    intro acc out hfold
    rw [List.foldlM_cons] at hfold
    cases hstep : f acc b with
    | error e =>
      rw [hstep] at hfold
      exact Except.noConfusion hfold
    | ok acc1 =>
      rw [hstep] at hfold
      have hfold2 : rest.foldlM f acc1 = .ok out := hfold
      intro x hx
      exact ih acc1 out hfold2 x (hmono acc b acc1 hstep x hx)

theorem foldlM_mem_of_elem {α : Type}
    (f : List String → α → Except StreamErr (List String))
    (hmono : ∀ acc a out, f acc a = .ok out → ∀ x ∈ acc, x ∈ out)
    (a : α) (x : String)
    (hx : ∀ acc out, f acc a = .ok out → x ∈ out) :
    ∀ (l : List α), a ∈ l → ∀ (acc out : List String),
      l.foldlM f acc = .ok out → x ∈ out := by
  intro l
  induction l with
  | nil =>
    intro ha
    exact absurd ha (List.not_mem_nil a)
  | cons b rest ih =>
    intro ha acc out hfold
    rw [List.foldlM_cons] at hfold
    cases hstep : f acc b with
    | error e =>
      rw [hstep] at hfold
      exact Except.noConfusion hfold
    | ok acc1 =>
      rw [hstep] at hfold
      have hfold2 : rest.foldlM f acc1 = .ok out := hfold
      rcases List.mem_cons.mp ha with rfl | ha2
      · exact foldlM_acc_mono f hmono rest acc1 out hfold2 x (hx acc acc1 hstep)
      · exact ih ha2 acc1 out hfold2

theorem pruneDanglingVersionStep_mono (ageOf : String → Option Nat) (cp : Product)
    (productPath : String) :
    ∀ acc rpv out, pruneDanglingVersionStep ageOf cp productPath acc rpv = .ok out →
      ∀ x ∈ acc, x ∈ out := by
  intro acc rpv out h x hx
  rw [pruneDanglingVersionStep] at h
  cases hlk : lookupA cp.Versions rpv with
  | some cv =>
    simp only [hlk] at h
    have h2 : Except.ok (ε := StreamErr) acc = Except.ok out := h
    injection h2 with h3
    rw [← h3]
    exact hx
  | none =>
    simp only [hlk] at h
    cases hr : removeIfOlder ageOf (goJoin2 productPath rpv) sixHours with
    | error e =>
      rw [hr] at h
      exact Except.noConfusion h
    | ok r =>
      rw [hr] at h
      have h2 : Except.ok (ε := StreamErr) (acc ++ r) = Except.ok out := h
      injection h2 with h3
      rw [← h3]
      exact List.mem_append_left r hx

theorem pruneDanglingVersionStep_hits (ageOf : String → Option Nat) (cp : Product)
    (productPath rpv : String) (age : Nat)
    (hnone : lookupA cp.Versions rpv = none)
    (hage : ageOf (goJoin2 productPath rpv) = some age) (hold : age > sixHours) :
    ∀ acc out, pruneDanglingVersionStep ageOf cp productPath acc rpv = .ok out →
      goJoin2 productPath rpv ∈ out := by
  intro acc out h
  have hro : removeIfOlder ageOf (goJoin2 productPath rpv) sixHours =
      .ok [goJoin2 productPath rpv] := by
    rw [removeIfOlder, hage]
    show (if age > sixHours then Except.ok [goJoin2 productPath rpv]
      else Except.ok ([] : List String)) = Except.ok [goJoin2 productPath rpv]
    exact if_pos hold
  rw [pruneDanglingVersionStep] at h
  simp only [hnone, hro] at h
  have h2 : Except.ok (ε := StreamErr) (acc ++ [goJoin2 productPath rpv]) =
      Except.ok out := h
  injection h2 with h3
  rw [← h3]
  exact List.mem_append_right acc (List.mem_singleton.mpr rfl)

theorem pruneDanglingProduct_mono (ageOf : String → Option Nat)
    (catalog : ProductCatalog) (rootDir streamName : String) :
    ∀ acc e out, pruneDanglingProduct ageOf catalog rootDir streamName acc e =
        .ok out →
      ∀ x ∈ acc, x ∈ out := by
  intro acc e out h x hx
  rw [pruneDanglingProduct] at h
  cases hlk : lookupA catalog.Products e.1 with
  | none =>
    simp only [hlk] at h
    cases hr : removeIfOlder ageOf
        (goJoin2 (goJoin2 rootDir streamName) e.2.RelPath) sixHours with
    | error e2 =>
      rw [hr] at h
      exact Except.noConfusion h
    | ok r =>
      rw [hr] at h
      have h2 : Except.ok (ε := StreamErr) (acc ++ r) = Except.ok out := h
      injection h2 with h3
      rw [← h3]
      exact List.mem_append_left r hx
  | some cp =>
    simp only [hlk] at h
    exact foldlM_acc_mono _ (pruneDanglingVersionStep_mono ageOf cp _) _ acc out h x hx

theorem pruneDanglingProduct_hits (ageOf : String → Option Nat)
    (catalog : ProductCatalog) (rootDir streamName pid : String) (rp cp : Product)
    (v : String) (age : Nat)
    (hcp : lookupA catalog.Products pid = some cp)
    (hv : v ∈ keysA rp.Versions)
    (hnone : lookupA cp.Versions v = none)
    (hage : ageOf (goJoin2 (goJoin2 (goJoin2 rootDir streamName) rp.RelPath) v) =
      some age)
    (hold : age > sixHours) :
    ∀ acc out, pruneDanglingProduct ageOf catalog rootDir streamName acc (pid, rp) =
        .ok out →
      goJoin2 (goJoin2 (goJoin2 rootDir streamName) rp.RelPath) v ∈ out := by
  intro acc out h
  rw [pruneDanglingProduct] at h
  simp only [hcp] at h
  exact foldlM_mem_of_elem _ (pruneDanglingVersionStep_mono ageOf cp _) v _
    (fun acc2 out2 hstep => pruneDanglingVersionStep_hits ageOf cp _ v age hnone
      hage hold acc2 out2 hstep)
    (keysA rp.Versions) hv acc out h

/-- C5.  The dangling prune scans the disk including incomplete versions
(the products argument of the removal fold is the result of GetProducts with
incomplete versions requested); when the catalog has zero products the prune
removes nothing, and otherwise every version directory that the scan finds
under a catalog-known product but that is absent from the catalog — in
particular an incomplete one — is removed when its modification time is
older than six hours. -/
theorem pruneDangling_empty_guard_and_removal :
    (∀ (digest : List Nat → String) (titleCase : String → String)
        (rootDir streamName : String) (walk : List WalkEntry) (calcHashes : Bool)
        (ageOf : String → Option Nat) (catalog : ProductCatalog)
        (out : List String),
        (keysA catalog.Products).length = 0 →
        pruneDanglingProductVersions digest titleCase rootDir streamName walk
          calcHashes ageOf catalog = .ok out →
        out = []) ∧
    (∀ (digest : List Nat → String) (titleCase : String → String)
        (rootDir streamName : String) (walk : List WalkEntry) (calcHashes : Bool)
        (ageOf : String → Option Nat) (catalog : ProductCatalog)
        (scanned : List (String × Product)) (pid : String) (rp cp : Product)
        (v : String) (age : Nat) (out : List String),
        GetProducts digest titleCase rootDir walk true calcHashes = .ok scanned →
        lookupA scanned pid = some rp →
        lookupA catalog.Products pid = some cp →
        v ∈ keysA rp.Versions →
        lookupA cp.Versions v = none →
        ageOf (goJoin2 (goJoin2 (goJoin2 rootDir streamName) rp.RelPath) v) =
          some age →
        age > sixHours →
        pruneDanglingProductVersions digest titleCase rootDir streamName walk
          calcHashes ageOf catalog = .ok out →
        goJoin2 (goJoin2 (goJoin2 rootDir streamName) rp.RelPath) v ∈ out) := by
  constructor
  · intro digest titleCase rootDir streamName walk calcHashes ageOf catalog out
      hempty hprune
    rw [pruneDanglingProductVersions] at hprune
    cases hscan : GetProducts digest titleCase rootDir walk true calcHashes with
    | error e =>
      rw [hscan] at hprune
      exact Except.noConfusion hprune
    | ok products =>
      rw [hscan] at hprune
      have hprune2 : (if (keysA catalog.Products).length = 0 then
          (pure [] : Except StreamErr (List String))
        else products.foldlM
          (pruneDanglingProduct ageOf catalog rootDir streamName) []) =
          .ok out := hprune
      rw [if_pos hempty] at hprune2
      have h2 : Except.ok (ε := StreamErr) ([] : List String) = Except.ok out :=
        hprune2
      injection h2 with h3
      exact h3.symm
  · intro digest titleCase rootDir streamName walk calcHashes ageOf catalog scanned
      pid rp cp v age out hscan hrp hcp hv hnone hage hold hprune
    rw [pruneDanglingProductVersions, hscan] at hprune
    have hne : ¬((keysA catalog.Products).length = 0) := by
      intro h0
      have hnil : catalog.Products = [] :=
        List.eq_nil_of_length_eq_zero (by simpa [keysA] using h0)
      have hmem := lookupA_mem hcp
      rw [hnil] at hmem
      exact List.not_mem_nil _ hmem
    have hprune2 : (if (keysA catalog.Products).length = 0 then
        (pure [] : Except StreamErr (List String))
      else scanned.foldlM
        (pruneDanglingProduct ageOf catalog rootDir streamName) []) =
        .ok out := hprune
    rw [if_neg hne] at hprune2
    exact foldlM_mem_of_elem _
      (pruneDanglingProduct_mono ageOf catalog rootDir streamName) (pid, rp) _
      (fun acc2 out2 hstep => pruneDanglingProduct_hits ageOf catalog rootDir
        streamName pid rp cp v age hcp hv hnone hage hold acc2 out2 hstep)
      scanned (lookupA_mem hrp) [] out hprune2

/-- On disk: a complete version 1.0 and an incomplete version 2.0 (metadata
only, no rootfs). -/
def c5files1 : List GoFile :=
  [{ name := "lxd.tar.xz" }, { name := "rootfs.squashfs" }]

def c5files2 : List GoFile := [{ name := "lxd.tar.xz" }]

def c5entries : List PEntry :=
  [PEntry.dir "1.0" c5files1, PEntry.dir "2.0" c5files2]

def c5walk : List WalkEntry :=
  [{ relPath := "images/d/r/a/v", entries := c5entries }]

/-- The catalog references only version 1.0 of the product. -/
def c5cp : Product :=
  { Distro := "d", Release := "r", Architecture := "a", Variant := "v",
    Versions := [("1.0", {})] }

def c5catalog : ProductCatalog := { Products := [("d:r:a:v", c5cp)] }

def c5version1 : Version :=
  { incomplete := false
    Items :=
      [("lxd.tar.xz",
        { Ftype := "lxd.tar.xz", Path := "images/d/r/a/v/1.0/lxd.tar.xz" }),
       ("rootfs.squashfs",
        { Ftype := "squashfs", Path := "images/d/r/a/v/1.0/rootfs.squashfs" })] }

def c5version2 : Version :=
  { incomplete := true
    Items :=
      [("lxd.tar.xz",
        { Ftype := "lxd.tar.xz", Path := "images/d/r/a/v/2.0/lxd.tar.xz" })] }

/-- What the incomplete-including scan finds for the product. -/
def c5rp : Product :=
  { Aliases := "d/r/v", Architecture := "a", Distro := "d", OS := "d",
    Release := "r", Variant := "v",
    Versions := [("1.0", c5version1), ("2.0", c5version2)] }

def c5scanned : List (String × Product) := [("d:r:a:v", c5rp)]

theorem pruneDangling_empty_guard_and_removal_witness :
    ([] : List String) = [] ∧
    goJoin2 (goJoin2 (goJoin2 "root" "images") c5rp.RelPath) "2.0" ∈
      ["root/images/d/r/a/v/2.0"] := by
  constructor
  · exact pruneDangling_empty_guard_and_removal.1 (fun _ => "") (fun s => s) "root"
      "images" c5walk false (fun _ => some 30000) {} [] (by decide) rfl
  · exact pruneDangling_empty_guard_and_removal.2 (fun _ => "") (fun s => s) "root"
      "images" c5walk false (fun _ => some 30000) c5catalog c5scanned "d:r:a:v"
      c5rp c5cp "2.0" 30000 ["root/images/d/r/a/v/2.0"] rfl rfl rfl (by decide)
      rfl rfl (by decide) rfl

end Simplestream
